import Mathlib

/-!
# BIP-39 mnemonic codec (`src/bip39.c`)

A shallow embedding of the BIP-39 layer of libwally-core and proofs of its contract.

* C strings are Lean `String`s (no embedded NUL), a null pointer is `none`.
* Byte buffers are `List Nat`; a value is a byte when it is `< 256`.
* `size_t` results are `Nat` (no operation of this file can overflow: every length is at
  most 33 once it is used in arithmetic).
* A function that writes through a pointer returns the new contents of the buffer next to
  its C return value.
* The SHA-256 primitive (ccan) and the English wordlist `en_words` (static data) are
  parameters of the functions that use them.
-/

namespace Bip39

/-! ## Data model -/

/-- Modelled from the spec: `struct words` is declared in `wordlist.h`, which is not among
the sources. The spec (section 4.1) gives a wordlist a word count, a bit width, and the two
lookups `word_at(index) -> word` and `index_of(word) -> index or not-found`. -/
structure words where
  /-- Number of words. -/
  len : Nat
  /-- Number of bits one word index carries. -/
  bits : Nat
  /-- The word stored at an index. -/
  word_at : Nat → String
  /-- The index of a word, `none` when the word is not in the list. -/
  index_of : String → Option Nat

/-- The seven static wordlist objects that `src/bip39.c` includes from `data/wordlists/`;
a value of this type stands for the address of one of them. -/
inductive WordsRef where
  | en_words | es_words | fr_words | it_words | jp_words | zhs_words | zht_words
  deriving DecidableEq, Repr

/-- The table `lookup[]` of `src/bip39.c`: language code and wordlist, in table order. -/
def lookup : List (String × WordsRef) :=
  [("en", .en_words), ("es", .es_words), ("fr", .fr_words),
   ("it", .it_words), ("jp", .jp_words), ("zhs", .zhs_words),
   ("zht", .zht_words)]

/-- The function `bip39_get_languages` of `src/bip39.c`. -/
def bip39_get_languages : String := "en es fr it jp zhs zht"

/-- The `for` loop of `bip39_get_wordlist` over the remaining table entries: the first
entry whose name compares equal (`!strcmp`) wins, falling through to the English list. -/
def get_wordlist_loop (lang : String) : List (String × WordsRef) → WordsRef
  | [] => .en_words
  | e :: rest => if lang = e.1 then e.2 else get_wordlist_loop lang rest

/-- The function `bip39_get_wordlist` of `src/bip39.c`; `none` is the null pointer. -/
def bip39_get_wordlist (lang : Option String) : WordsRef :=
  match lang with
  | some l => get_wordlist_loop l lookup
  | none => .en_words

/-- Modelled from the spec: the macro `BIP39_ENTROPY_LEN_128` of `bip39.h` (not among the
sources); the spec gives the five entropy sizes 16, 20, 24, 28, 32 bytes. -/
def BIP39_ENTROPY_LEN_128 : Nat := 16
/-- Modelled from the spec: the macro `BIP39_ENTROPY_LEN_160` of `bip39.h`. -/
def BIP39_ENTROPY_LEN_160 : Nat := 20
/-- Modelled from the spec: the macro `BIP39_ENTROPY_LEN_192` of `bip39.h`. -/
def BIP39_ENTROPY_LEN_192 : Nat := 24
/-- Modelled from the spec: the macro `BIP39_ENTROPY_LEN_224` of `bip39.h`. -/
def BIP39_ENTROPY_LEN_224 : Nat := 28
/-- Modelled from the spec: the macro `BIP39_ENTROPY_LEN_256` of `bip39.h`. -/
def BIP39_ENTROPY_LEN_256 : Nat := 32

/-- The function `entropy_len_to_mask` of `src/bip39.c`: the checksum mask of an entropy
length, 0 for a bad length. -/
def entropy_len_to_mask (len : Nat) : Nat :=
  if len = BIP39_ENTROPY_LEN_128 then 0xf0
  else if len = BIP39_ENTROPY_LEN_160 then 0xf8
  else if len = BIP39_ENTROPY_LEN_192 then 0xfc
  else if len = BIP39_ENTROPY_LEN_224 then 0xfe
  else if len = BIP39_ENTROPY_LEN_256 then 0xff
  else 0

/-! ## The packing layer (`mnemonic.c`, modelled from the spec) -/

/-- The `k` low bits of `v`, most significant first. -/
def natBits : Nat → Nat → List Bool
  | 0, _ => []
  | k + 1, v => v.testBit k :: natBits k v

/-- The unsigned value of a bit string read most significant bit first. -/
def bitsVal : List Bool → Nat
  | [] => 0
  | b :: l => b.toNat * 2 ^ l.length + bitsVal l

/-- A byte sequence as one contiguous bit stream, most significant bit first. -/
def bytesBits (bytes : List Nat) : List Bool :=
  bytes.flatMap (natBits 8)

/-- The first `n` consecutive groups of `k` bits of a bit stream. -/
def groups (k : Nat) : Nat → List Bool → List (List Bool)
  | 0, _ => []
  | n + 1, l => l.take k :: groups k n (l.drop k)

/-- Words joined in order, separated by a single space. -/
def joinWords : List (List Char) → List Char
  | [] => []
  | [t] => t
  | t :: ts => t ++ ' ' :: joinWords ts

/-- The words of a phrase: the maximal pieces between single spaces. -/
def splitWords : List Char → List (List Char)
  | [] => [[]]
  | c :: cs =>
    if c = ' ' then [] :: splitWords cs
    else
      match splitWords cs with
      | [] => [[c]]
      | t :: ts => (c :: t) :: ts

/-- The index of every word of a list, `none` as soon as one word is not in the wordlist. -/
def word_indices (w : words) : List String → Option (List Nat)
  | [] => some []
  | t :: ts =>
    match w.index_of t, word_indices w ts with
    | some i, some is => some (i :: is)
    | _, _ => none

/-- Modelled from the spec: `mnemonic_from_bytes` is defined in `mnemonic.c`, which is not
among the sources. Spec section 4.2, steps 4 to 6: the bytes are one bit stream, most
significant bit first; it is split into consecutive `bits`-wide groups from bit 0, whole
groups only; each group is an unsigned index looked up with `word_at`; the words are joined
by single spaces. The spec names no failure of this step, so the result is never `none`
(the C function returns a `char*`). -/
def mnemonic_from_bytes (w : words) (bytes : List Nat) (len : Nat) : Option String :=
  let total_bits := len * 8
  let total_mnemonics := total_bits / w.bits
  let idxs := (groups w.bits total_mnemonics (bytesBits (bytes.take len))).map bitsVal
  some (String.mk (joinWords (idxs.map (fun i => (w.word_at i).data))))

/-- Modelled from the spec: `mnemonic_to_bytes` is defined in `mnemonic.c`, which is not
among the sources. Spec section 4.3, step 1: every word of the phrase is looked up with
`index_of` (a miss fails, reported as 0); the indices are concatenated most significant
bit first and repacked into `ceil(bits * word_count / 8)` bytes, the bits after the last
index being zero. A payload that does not fit the `len` bytes of the destination fails
with 0. The result is the returned length and the bytes written. -/
def mnemonic_to_bytes (w : words) (mnemonic : String) (len : Nat) : Nat × List Nat :=
  let toks := (splitWords mnemonic.data).map String.mk
  match word_indices w toks with
  | none => (0, [])
  | some idxs =>
    let n := (toks.length * w.bits + 7) / 8
    if len < n then (0, [])
    else
      let bs := idxs.flatMap (natBits w.bits)
      (n, (groups 8 n (bs ++ List.replicate (8 * n - bs.length) false)).map bitsVal)

/-! ## The BIP-39 layer (`src/bip39.c`) -/

/-- The first digest byte `tmp.u.u8[0]` of the SHA-256 primitive applied to a buffer. -/
def digest0 (sha256 : List Nat → List Nat) (bytes : List Nat) : Nat :=
  (sha256 bytes).getD 0 0 % 256

/-- The function `bip39_mnemonic_from_bytes` of `src/bip39.c`. `w = none` is the null
wordlist, `bytes` the memory at the entropy pointer and `len` the length argument; the
result `none` is `NULL`. -/
def bip39_mnemonic_from_bytes (sha256 : List Nat → List Nat) (en_words : words)
    (w : Option words) (bytes : List Nat) (len : Nat) : Option String :=
  let w := w.getD en_words
  if w.bits ≠ 11 ∨ entropy_len_to_mask len = 0 then none
  else
    let checksum := digest0 sha256 (bytes.take len)
    let checksummed_bytes := bytes.take len ++ [checksum]
    mnemonic_from_bytes w checksummed_bytes (len + 1)

/-- The function `bip39_mnemonic_to_bytes` of `src/bip39.c`. `bytes` is the caller's
buffer and `len` its declared length; the result is the returned `size_t` and the caller's
buffer after the call. The scratch buffer `tmp_bytes` holds `BIP39_ENTROPY_LEN_256 + 1`
bytes. -/
def bip39_mnemonic_to_bytes (sha256 : List Nat → List Nat) (en_words : words)
    (w : Option words) (mnemonic : String) (bytes : List Nat) (len : Nat) :
    Nat × List Nat :=
  let w := w.getD en_words
  if w.bits ≠ 11 then (0, bytes)
  else
    let r := mnemonic_to_bytes w mnemonic (BIP39_ENTROPY_LEN_256 + 1)
    let tmp_len := r.1
    let tmp_bytes := r.2
    let mask := entropy_len_to_mask (tmp_len - 1)
    if tmp_len = 0 ∨ mask = 0 then (0, bytes)
    else if len < tmp_len - 1 then (0, bytes)
    else
      let checksum := digest0 sha256 (tmp_bytes.take (tmp_len - 1))
      if tmp_bytes.getD (tmp_len - 1) 0 &&& mask ≠ checksum &&& mask then (0, bytes)
      else (tmp_len - 1, tmp_bytes.take (tmp_len - 1) ++ bytes.drop (tmp_len - 1))

/-- The function `bip39_mnemonic_is_valid` of `src/bip39.c`: a decode into a local 33-byte
buffer (its initial contents are modelled as zeros; the result does not depend on them). -/
def bip39_mnemonic_is_valid (sha256 : List Nat → List Nat) (en_words : words)
    (w : Option words) (mnemonic : String) : Bool :=
  (bip39_mnemonic_to_bytes sha256 en_words w mnemonic
    (List.replicate (BIP39_ENTROPY_LEN_256 + 1) 0) (BIP39_ENTROPY_LEN_256 + 1)).1 != 0

/-! ## Vocabulary of the statements -/

/-- The two lookups of a wordlist are mutual inverses on the `2 ^ bits` indices. -/
def words.inverse (w : words) : Prop :=
  (∀ i, i < 2 ^ w.bits → w.index_of (w.word_at i) = some i) ∧
  (∀ s i, w.index_of s = some i → i < 2 ^ w.bits ∧ w.word_at i = s)

/-- Every entry of the wordlist is a word: it holds no separator (space) character. -/
def words.spaceFree (w : words) : Prop :=
  ∀ i, i < 2 ^ w.bits → ' ' ∉ (w.word_at i).data

/-- The five supported entropy lengths in bytes. -/
def validLen (L : Nat) : Prop := L = 16 ∨ L = 20 ∨ L = 24 ∨ L = 28 ∨ L = 32

/-- Membership in the five supported lengths is decidable. -/
instance validLen.decidable (L : Nat) : Decidable (validLen L) := by
  unfold validLen; infer_instance

/-- The number of words of a phrase. -/
def word_count (m : String) : Nat := (splitWords m.data).length

/-- The trailing byte after a pack/unpack round: the top `j` bits of `c`, zeros below. -/
def topBits (j c : Nat) : Nat :=
  bitsVal ((natBits 8 c).take j ++ List.replicate (8 - j) false)

/-! ## A small concrete instance -/

/-- A wordlist of 2048 distinct words used for concrete evaluations: the word of index `i`
is the letter `a` repeated `i + 1` times. -/
def unaryWords : words where
  len := 2048
  bits := 11
  word_at := fun i => String.mk (List.replicate (i + 1) 'a')
  index_of := fun s =>
    if s.data ≠ [] ∧ s.data.length ≤ 2048 ∧ s.data.all (fun c => c = 'a')
    then some (s.data.length - 1) else none

/-- A stand-in for the hash primitive used for concrete evaluations: the digest starts with
the byte sum of the input plus 0x37. -/
def sumHash (bytes : List Nat) : List Nat := [(bytes.sum + 0x37) % 256]

/-- The entropy used for concrete evaluations: fifteen zero bytes and a final 1. -/
def sampleEntropy : List Nat := List.replicate 15 0 ++ [1]

/-! ## Names for intermediate values -/

/-- The local array `checksummed_bytes` of `bip39_mnemonic_from_bytes` once it is filled:
the `len` entropy bytes followed by the first digest byte. -/
def checksummed_bytes (sha256 : List Nat → List Nat) (bytes : List Nat) (len : Nat) :
    List Nat :=
  bytes.take len ++ [digest0 sha256 (bytes.take len)]

/-- The word indices that `mnemonic_from_bytes` reads from a buffer: the values of its
whole `bits`-wide groups, in order. -/
def mnemonic_indices (w : words) (bytes : List Nat) (len : Nat) : List Nat :=
  (groups w.bits (len * 8 / w.bits) (bytesBits (bytes.take len))).map bitsVal

/-- The failure kinds of the decode named by the spec (section 7). -/
inductive DecodeFailure where
  | InvalidWordlist | UnknownWord | InvalidWordCount | BufferTooSmall | ChecksumMismatch
  deriving DecidableEq, Repr

/-- The kind of failure of a call of `bip39_mnemonic_to_bytes`, `none` when the call
succeeds: the tests of the function in their order, named after the spec (section 4.3).
A miss of `index_of` is `UnknownWord`; a payload whose length minus 1 is not a supported
entropy length (or that does not fit the scratch buffer) is `InvalidWordCount`. -/
def decode_failure (sha256 : List Nat → List Nat) (en_words : words)
    (w : Option words) (mnemonic : String) (len : Nat) : Option DecodeFailure :=
  let w := w.getD en_words
  if w.bits ≠ 11 then some .InvalidWordlist
  else
    match word_indices w ((splitWords mnemonic.data).map String.mk) with
    | none => some .UnknownWord
    | some _ =>
      let r := mnemonic_to_bytes w mnemonic (BIP39_ENTROPY_LEN_256 + 1)
      let mask := entropy_len_to_mask (r.1 - 1)
      if r.1 = 0 ∨ mask = 0 then some .InvalidWordCount
      else if len < r.1 - 1 then some .BufferTooSmall
      else if r.2.getD (r.1 - 1) 0 &&& mask
          ≠ digest0 sha256 (r.2.take (r.1 - 1)) &&& mask then some .ChecksumMismatch
      else none

/-- A wordlist whose bit width is not 11, used for concrete evaluations. -/
def tenBitWords : words := { unaryWords with bits := 10 }

/-- The canonical BIP-39 phrase of the all-zero 128-bit entropy. -/
def zeroPhrase : String :=
  "abandon abandon abandon abandon abandon abandon abandon abandon abandon abandon abandon about"

/-- The 16-byte all-zero entropy. -/
def zeroEntropy : List Nat := List.replicate 16 0

/-- A wordlist that starts like the English one (abandon, ability, able, about), used for
concrete evaluations; the entries from index 4 on are the letter `z` repeated. -/
def miniEnglish : words where
  len := 2048
  bits := 11
  word_at := fun i =>
    if i = 0 then "abandon" else if i = 1 then "ability" else if i = 2 then "able"
    else if i = 3 then "about" else String.mk (List.replicate i 'z')
  index_of := fun s =>
    if s = "abandon" then some 0 else if s = "ability" then some 1
    else if s = "able" then some 2 else if s = "about" then some 3
    else if 4 ≤ s.data.length ∧ s.data.length < 2048 ∧ s.data.all (fun c => c = 'z')
    then some s.data.length else none

/-! ## The decode with its unpacking step as a parameter -/

/-- The function `bip39_mnemonic_to_bytes` of `src/bip39.c` with the unpacking step it calls
(`mnemonic_to_bytes`, whose source is absent) taken as the parameter `unpack`: every line of
the function is as in `bip39_mnemonic_to_bytes`, only the callee is left open. The spec
leaves the bits of the trailing payload byte below the checksum unspecified, so statements
about them are made for every `unpack`. -/
def bip39_mnemonic_to_bytes_with (unpack : words → String → Nat → Nat × List Nat)
    (sha256 : List Nat → List Nat) (en_words : words)
    (w : Option words) (mnemonic : String) (bytes : List Nat) (len : Nat) :
    Nat × List Nat :=
  let w := w.getD en_words
  if w.bits ≠ 11 then (0, bytes)
  else
    let r := unpack w mnemonic (BIP39_ENTROPY_LEN_256 + 1)
    let tmp_len := r.1
    let tmp_bytes := r.2
    let mask := entropy_len_to_mask (tmp_len - 1)
    if tmp_len = 0 ∨ mask = 0 then (0, bytes)
    else if len < tmp_len - 1 then (0, bytes)
    else
      let checksum := digest0 sha256 (tmp_bytes.take (tmp_len - 1))
      if tmp_bytes.getD (tmp_len - 1) 0 &&& mask ≠ checksum &&& mask then (0, bytes)
      else (tmp_len - 1, tmp_bytes.take (tmp_len - 1) ++ bytes.drop (tmp_len - 1))

/-- An unpacking step that differs from `mnemonic_to_bytes` only in the bits after the last
index, which it sets to one instead of zero (the spec leaves them unspecified); used for
concrete evaluations. -/
def mnemonic_to_bytes_ones (w : words) (mnemonic : String) (len : Nat) : Nat × List Nat :=
  let toks := (splitWords mnemonic.data).map String.mk
  match word_indices w toks with
  | none => (0, [])
  | some idxs =>
    let n := (toks.length * w.bits + 7) / 8
    if len < n then (0, [])
    else
      let bs := idxs.flatMap (natBits w.bits)
      (n, (groups 8 n (bs ++ List.replicate (8 * n - bs.length) true)).map bitsVal)

/-! ## Bit strings, grouping and tokens -/

theorem natBits_length (k v : Nat) : (natBits k v).length = k := by
  induction k with
  | zero => rfl
  | succ k ih => simp [natBits, ih]

theorem bitsVal_lt (l : List Bool) : bitsVal l < 2 ^ l.length := by
  induction l with
  | nil => simp [bitsVal]
  | cons b l ih =>
    have hb : b.toNat ≤ 1 := Bool.toNat_le b
    have h2 : b.toNat * 2 ^ l.length ≤ 1 * 2 ^ l.length := Nat.mul_le_mul_right _ hb
    simp only [bitsVal, List.length_cons, pow_succ]
    omega

theorem natBits_congr (k a b : Nat) (h : a % 2 ^ k = b % 2 ^ k) : natBits k a = natBits k b := by
  induction k with
  | zero => rfl
  | succ k ih =>
    have hk : a % 2 ^ k = b % 2 ^ k := by
      have ha := Nat.mod_mod_of_dvd a (pow_dvd_pow 2 (Nat.le_succ k))
      have hb := Nat.mod_mod_of_dvd b (pow_dvd_pow 2 (Nat.le_succ k))
      rw [← ha, ← hb, h]
    have ht : a.testBit k = b.testBit k := by
      have ha : (a % 2 ^ (k + 1)).testBit k = a.testBit k := by
        rw [Nat.testBit_mod_two_pow]; simp
      have hb : (b % 2 ^ (k + 1)).testBit k = b.testBit k := by
        rw [Nat.testBit_mod_two_pow]; simp
      rw [← ha, ← hb, h]
    simp [natBits, ih hk, ht]

theorem natBits_bitsVal (l : List Bool) : natBits l.length (bitsVal l) = l := by
  induction l with
  | nil => rfl
  | cons b l ih =>
    have hlt := bitsVal_lt l
    have h1 : (b.toNat * 2 ^ l.length + bitsVal l).testBit l.length = b := by
      rw [Nat.mul_comm, Nat.testBit_mul_pow_two_add _ hlt]
      simp
      cases b <;> simp
    have h2 : natBits l.length (b.toNat * 2 ^ l.length + bitsVal l)
        = natBits l.length (bitsVal l) := by
      apply natBits_congr
      rw [Nat.add_comm, Nat.add_mul_mod_self_right]
    simp only [List.length_cons, natBits, bitsVal, h1, h2, ih]

theorem bitsVal_natBits (k v : Nat) : bitsVal (natBits k v) = v % 2 ^ k := by
  induction k with
  | zero => simp [natBits, bitsVal, Nat.mod_one]
  | succ k ih =>
    simp only [natBits, bitsVal, natBits_length, ih]
    rw [Nat.mod_pow_succ]
    have : (v.testBit k).toNat = v / 2 ^ k % 2 := by
      rw [Nat.testBit]
      simp [Nat.shiftRight_eq_div_pow]
      rcases Nat.mod_two_eq_zero_or_one (v / 2 ^ k) with h | h <;> simp [h]
    rw [this]; ring

theorem bytesBits_length (bs : List Nat) : (bytesBits bs).length = 8 * bs.length := by
  induction bs with
  | nil => rfl
  | cons b bs ih =>
    simp only [bytesBits, List.flatMap_cons, List.length_append, natBits_length,
      List.length_cons] at ih ⊢
    omega

theorem bytesBits_append (a b : List Nat) : bytesBits (a ++ b) = bytesBits a ++ bytesBits b := by
  simp [bytesBits]

theorem groups_length (k n : Nat) (l : List Bool) : (groups k n l).length = n := by
  induction n generalizing l with
  | zero => rfl
  | succ n ih => simp [groups, ih]

theorem groups_val_lt (k n : Nat) (l : List Bool) :
    ∀ i ∈ (groups k n l).map bitsVal, i < 2 ^ k := by
  induction n generalizing l with
  | zero => simp [groups]
  | succ n ih =>
    intro i hi
    simp only [groups, List.map_cons, List.mem_cons] at hi
    rcases hi with rfl | hi
    · have h1 := bitsVal_lt (l.take k)
      have h2 : (l.take k).length ≤ k := by simp
      exact lt_of_lt_of_le h1 (Nat.pow_le_pow_right (by decide) h2)
    · exact ih _ i hi

theorem groups_flatMap (k n : Nat) (l : List Bool) (h : k * n ≤ l.length) :
    ((groups k n l).map bitsVal).flatMap (natBits k) = l.take (k * n) := by
  induction n generalizing l with
  | zero => simp [groups]
  | succ n ih =>
    have hk : k ≤ l.length := by
      have : k * (n + 1) = k * n + k := by ring
      omega
    have hlen : (l.take k).length = k := by simp [hk]
    have hd : k * n ≤ (l.drop k).length := by
      have : k * (n + 1) = k * n + k := by ring
      simp; omega
    have h1 : natBits k (bitsVal (l.take k)) = l.take k := by
      have := natBits_bitsVal (l.take k)
      rwa [hlen] at this
    simp only [groups, List.map_cons, List.flatMap_cons, h1, ih _ hd]
    rw [show k * (n + 1) = k + k * n by ring, List.take_add]

theorem groups_bytes (bs : List Nat) (hbs : ∀ b ∈ bs, b < 256) (j : Nat) (rest : List Bool) :
    (groups 8 (bs.length + j) (bytesBits bs ++ rest)).map bitsVal
      = bs ++ (groups 8 j rest).map bitsVal := by
  induction bs with
  | nil => simp [bytesBits]
  | cons b bs ih =>
    have hb : b < 256 := hbs b (by simp)
    have hl : (natBits 8 b).length = 8 := natBits_length 8 b
    have e1 : List.take 8 (natBits 8 b ++ (bytesBits bs ++ rest)) = natBits 8 b := by
      rw [List.take_append_of_le_length (by omega), List.take_of_length_le (by omega)]
    have e2 : List.drop 8 (natBits 8 b ++ (bytesBits bs ++ rest)) = bytesBits bs ++ rest := by
      rw [List.drop_append_of_le_length (by omega), List.drop_of_length_le (by omega)]
      rfl
    have e3 : bitsVal (natBits 8 b) = b := by
      rw [bitsVal_natBits]; exact Nat.mod_eq_of_lt hb
    have hstep : (b :: bs).length + j = (bs.length + j) + 1 := by simp; omega
    rw [hstep]
    simp only [groups, bytesBits, List.flatMap_cons, List.append_assoc, List.map_cons,
      List.cons_append]
    have ih2 := ih (fun x hx => hbs x (by simp [hx]))
    simp only [bytesBits] at ih2 e1 e2
    rw [e1, e2, e3, ih2]

theorem splitWords_ne_nil (cs : List Char) : splitWords cs ≠ [] := by
  induction cs with
  | nil => simp [splitWords]
  | cons c cs ih =>
    simp only [splitWords]
    split
    · simp
    · split <;> simp

theorem splitWords_word (t : List Char) (ht : ' ' ∉ t) : splitWords t = [t] := by
  induction t with
  | nil => rfl
  | cons c t ih =>
    have hc : c ≠ ' ' := fun h => ht (by simp [h])
    have ht2 : ' ' ∉ t := fun h => ht (by simp [h])
    simp [splitWords, hc, ih ht2]

theorem splitWords_append (t : List Char) (ht : ' ' ∉ t) (rest : List Char) :
    splitWords (t ++ ' ' :: rest) = t :: splitWords rest := by
  induction t with
  | nil => simp [splitWords]
  | cons c t ih =>
    have hc : c ≠ ' ' := fun h => ht (by simp [h])
    have ht2 : ' ' ∉ t := fun h => ht (by simp [h])
    simp [splitWords, hc, ih ht2]

theorem splitWords_joinWords (ws : List (List Char)) (hne : ws ≠ [])
    (hws : ∀ t ∈ ws, ' ' ∉ t) : splitWords (joinWords ws) = ws := by
  induction ws with
  | nil => exact absurd rfl hne
  | cons t ts ih =>
    cases ts with
    | nil => simpa [joinWords] using splitWords_word t (hws t (by simp))
    | cons u us =>
      have h1 : ' ' ∉ t := hws t (by simp)
      have h2 := ih (by simp) (fun x hx => hws x (by simp [hx]))
      simp only [joinWords] at h2 ⊢
      rw [splitWords_append t h1, h2]

theorem word_indices_map (w : words) (idxs : List Nat)
    (h : ∀ i ∈ idxs, w.index_of (w.word_at i) = some i) :
    word_indices w (idxs.map w.word_at) = some idxs := by
  induction idxs with
  | nil => rfl
  | cons i is ih =>
    have h1 := h i (by simp)
    have h2 := ih (fun x hx => h x (by simp [hx]))
    simp [word_indices, h1, h2]

set_option maxRecDepth 100000 in
theorem topBits_mask :
    ∀ c < 256, topBits 4 c = c &&& 0xf0 ∧ topBits 5 c = c &&& 0xf8 ∧ topBits 6 c = c &&& 0xfc
      ∧ topBits 7 c = c &&& 0xfe ∧ topBits 8 c = c &&& 0xff := by
  decide

theorem unpack_pack (w : words) (hbits : w.bits = 11)
    (hinv : ∀ i < 2048, w.index_of (w.word_at i) = some i)
    (hsep : ∀ i < 2048, ' ' ∉ (w.word_at i).data)
    (e : List Nat) (c : Nat) (he : ∀ b ∈ e, b < 256) (L n j cap : Nat)
    (hL : e.length = L) (hn : 11 * n = 8 * L + j) (hj0 : 0 < j) (hj8 : j ≤ 8)
    (hcap : L + 1 ≤ cap) (m : String)
    (hm : mnemonic_from_bytes w (e ++ [c]) (L + 1) = some m) :
    mnemonic_to_bytes w m cap = (L + 1, e ++ [topBits j c]) := by
  have hn0 : 0 < n := by omega
  have htot : (L + 1) * 8 / 11 = n := by omega
  have htake : (e ++ [c]).take (L + 1) = e ++ [c] := by
    apply List.take_of_length_le; simp [hL]
  simp only [mnemonic_from_bytes, hbits, htot, htake, Option.some.injEq] at hm
  subst hm
  set B := bytesBits (e ++ [c]) with hB
  set idxs := (groups 11 n B).map bitsVal with hidxs
  have hBlen : B.length = 8 * (L + 1) := by rw [hB, bytesBits_length]; simp [hL]
  have hlt : ∀ i ∈ idxs, i < 2048 := by
    intro i hi
    simpa using groups_val_lt 11 n B i hi
  have hilen : idxs.length = n := by simp [hidxs, groups_length]
  have hne : idxs.map (fun i => (w.word_at i).data) ≠ [] := by
    intro h
    have := congrArg List.length h
    simp [hilen] at this
    omega
  have hsplit := splitWords_joinWords (idxs.map (fun i => (w.word_at i).data)) hne
    (by
      intro t ht
      simp only [List.mem_map] at ht
      obtain ⟨i, hi, rfl⟩ := ht
      exact hsep i (hlt i hi))
  have htoks : (splitWords (joinWords (idxs.map (fun i => (w.word_at i).data)))).map String.mk
      = idxs.map w.word_at := by
    rw [hsplit, List.map_map]
    rfl
  have hwi := word_indices_map w idxs (fun i hi => hinv i (hlt i hi))
  have hbs : idxs.flatMap (natBits 11) = B.take (11 * n) :=
    groups_flatMap 11 n B (by omega)
  have hBtake : B.take (11 * n) = bytesBits e ++ (natBits 8 c).take j := by
    have hel : (bytesBits e).length = 8 * L := by rw [bytesBits_length, hL]
    rw [hB, bytesBits_append, List.take_append_eq_append_take, hel,
      List.take_of_length_le (by omega)]
    have : 11 * n - 8 * L = j := by omega
    rw [this]
    simp [bytesBits]
  have hcnt : (n * 11 + 7) / 8 = L + 1 := by omega
  simp only [mnemonic_to_bytes, htoks, hwi, hbits, List.length_map, hilen, hcnt, hbs]
  have hnot : ¬ cap < L + 1 := by omega
  simp only [hnot, if_false, Prod.mk.injEq, true_and]
  have hpadlen : 8 * (L + 1) - (B.take (11 * n)).length = 8 - j := by
    simp [hBlen]; omega
  rw [hpadlen, hBtake, List.append_assoc]
  have hg := groups_bytes e he 1 ((natBits 8 c).take j ++ List.replicate (8 - j) false)
  rw [hL] at hg
  rw [hg]
  have hrl : ((natBits 8 c).take j ++ List.replicate (8 - j) false).length = 8 := by
    simp [natBits_length]; omega
  simp only [groups, List.map_cons, List.map_nil, topBits]
  rw [List.take_of_length_le (by omega)]

/-! ## The decode path -/

theorem digest0_lt (sha256 : List Nat → List Nat) (bs : List Nat) : digest0 sha256 bs < 256 :=
  Nat.mod_lt _ (by decide)

theorem mask_eq_zero_iff (len : Nat) : entropy_len_to_mask len = 0 ↔ ¬ validLen len := by
  unfold entropy_len_to_mask validLen BIP39_ENTROPY_LEN_128 BIP39_ENTROPY_LEN_160
    BIP39_ENTROPY_LEN_192 BIP39_ENTROPY_LEN_224 BIP39_ENTROPY_LEN_256
  split_ifs <;> simp_all

/-- What `bip39_mnemonic_to_bytes` does once the unpacking step has produced `tmp_len`
and `tmp_bytes`. -/
theorem to_bytes_of_unpack (sha256 : List Nat → List Nat) (en_words : words)
    (w : Option words) (m : String) (bytes : List Nat) (len T : Nat) (p : List Nat)
    (hbits : (w.getD en_words).bits = 11)
    (hu : mnemonic_to_bytes (w.getD en_words) m 33 = (T, p)) :
    bip39_mnemonic_to_bytes sha256 en_words w m bytes len =
      if T = 0 ∨ entropy_len_to_mask (T - 1) = 0 then (0, bytes)
      else if len < T - 1 then (0, bytes)
      else if p.getD (T - 1) 0 &&& entropy_len_to_mask (T - 1)
          ≠ digest0 sha256 (p.take (T - 1)) &&& entropy_len_to_mask (T - 1) then (0, bytes)
      else (T - 1, p.take (T - 1) ++ bytes.drop (T - 1)) := by
  simp only [bip39_mnemonic_to_bytes, hbits, BIP39_ENTROPY_LEN_256, hu]
  simp

theorem topBits_land (L : Nat) (hL : validLen L) (c : Nat) (hc : c < 256) :
    topBits (L / 4) c &&& entropy_len_to_mask L = c &&& entropy_len_to_mask L := by
  obtain ⟨h4, h5, h6, h7, h8⟩ := topBits_mask c hc
  rcases hL with rfl | rfl | rfl | rfl | rfl <;>
    simp only [entropy_len_to_mask, BIP39_ENTROPY_LEN_128, BIP39_ENTROPY_LEN_160,
      BIP39_ENTROPY_LEN_192, BIP39_ENTROPY_LEN_224, BIP39_ENTROPY_LEN_256, Nat.reduceDiv,
      Nat.reduceEqDiff, if_true, if_false, h4, h5, h6, h7, h8, Nat.land_assoc, Nat.and_self,
      Nat.reduceAnd]

theorem validLen_ne_zero {L : Nat} (h : validLen L) : L ≠ 0 := by
  rcases h with h | h | h | h | h <;> omega

theorem validLen_le {L : Nat} (h : validLen L) : L ≤ 32 := by
  rcases h with h | h | h | h | h <;> omega

theorem mnemonic_to_bytes_length (w : words) (m : String) (cap : Nat) :
    (mnemonic_to_bytes w m cap).2.length = (mnemonic_to_bytes w m cap).1 := by
  simp only [mnemonic_to_bytes]
  cases h : word_indices w ((splitWords m.data).map String.mk) with
  | none => rfl
  | some idxs =>
    simp only
    split_ifs
    · rfl
    · simp [groups_length]

theorem mnemonic_to_bytes_fst (w : words) (m : String) (cap : Nat) :
    (mnemonic_to_bytes w m cap).1 = 0 ∨
      ((mnemonic_to_bytes w m cap).1 = (word_count m * w.bits + 7) / 8 ∧
        (mnemonic_to_bytes w m cap).1 ≤ cap) := by
  simp only [mnemonic_to_bytes, word_count]
  cases h : word_indices w ((splitWords m.data).map String.mk) with
  | none => left; rfl
  | some idxs =>
    simp only
    split_ifs with h
    · left; rfl
    · right
      simp only [List.length_map] at h ⊢
      exact ⟨trivial, Nat.le_of_not_lt h⟩

/-- The decode with the unpacking step named: `U` is what `mnemonic_to_bytes` returns for
the 33-byte scratch buffer. -/
theorem to_bytes_eq (sha256 : List Nat → List Nat) (en_words : words)
    (w : Option words) (m : String) (bytes : List Nat) (len : Nat)
    (hbits : (w.getD en_words).bits = 11) :
    bip39_mnemonic_to_bytes sha256 en_words w m bytes len =
      if (mnemonic_to_bytes (w.getD en_words) m 33).1 = 0
          ∨ entropy_len_to_mask ((mnemonic_to_bytes (w.getD en_words) m 33).1 - 1) = 0
        then (0, bytes)
      else if len < (mnemonic_to_bytes (w.getD en_words) m 33).1 - 1 then (0, bytes)
      else if (mnemonic_to_bytes (w.getD en_words) m 33).2.getD
            ((mnemonic_to_bytes (w.getD en_words) m 33).1 - 1) 0
            &&& entropy_len_to_mask ((mnemonic_to_bytes (w.getD en_words) m 33).1 - 1)
          ≠ digest0 sha256 ((mnemonic_to_bytes (w.getD en_words) m 33).2.take
              ((mnemonic_to_bytes (w.getD en_words) m 33).1 - 1))
            &&& entropy_len_to_mask ((mnemonic_to_bytes (w.getD en_words) m 33).1 - 1)
        then (0, bytes)
      else ((mnemonic_to_bytes (w.getD en_words) m 33).1 - 1,
        (mnemonic_to_bytes (w.getD en_words) m 33).2.take
            ((mnemonic_to_bytes (w.getD en_words) m 33).1 - 1)
          ++ bytes.drop ((mnemonic_to_bytes (w.getD en_words) m 33).1 - 1)) :=
  to_bytes_of_unpack sha256 en_words w m bytes len _ _ hbits rfl

theorem to_bytes_bad_bits (sha256 : List Nat → List Nat) (en_words : words)
    (w : Option words) (m : String) (bytes : List Nat) (len : Nat)
    (hbits : (w.getD en_words).bits ≠ 11) :
    bip39_mnemonic_to_bytes sha256 en_words w m bytes len = (0, bytes) := by
  simp [bip39_mnemonic_to_bytes, hbits]

/-- A successful decode, spelled out: the unpacked length is a supported length plus one,
the buffer is large enough, and the masked checksums agree. -/
theorem to_bytes_ne_zero (sha256 : List Nat → List Nat) (en_words : words)
    (w : Option words) (m : String) (bytes : List Nat) (len : Nat)
    (h : (bip39_mnemonic_to_bytes sha256 en_words w m bytes len).1 ≠ 0) :
    (w.getD en_words).bits = 11 ∧
    validLen ((mnemonic_to_bytes (w.getD en_words) m 33).1 - 1) ∧
    (mnemonic_to_bytes (w.getD en_words) m 33).1 - 1 ≤ len ∧
    bip39_mnemonic_to_bytes sha256 en_words w m bytes len =
      ((mnemonic_to_bytes (w.getD en_words) m 33).1 - 1,
        (mnemonic_to_bytes (w.getD en_words) m 33).2.take
            ((mnemonic_to_bytes (w.getD en_words) m 33).1 - 1)
          ++ bytes.drop ((mnemonic_to_bytes (w.getD en_words) m 33).1 - 1)) := by
  by_cases hbits : (w.getD en_words).bits = 11
  · rw [to_bytes_eq sha256 en_words w m bytes len hbits] at h ⊢
    split_ifs at h ⊢ with h1 h2 h3
    · exact absurd rfl h
    · exact absurd rfl h
    · exact absurd rfl h
    · refine ⟨hbits, ?_, Nat.le_of_not_lt h2, rfl⟩
      by_contra hv
      exact h1 (Or.inr ((mask_eq_zero_iff _).mpr hv))
  · rw [to_bytes_bad_bits sha256 en_words w m bytes len hbits] at h
    exact absurd rfl h

/-- The returned length does not depend on the caller's buffer once it is large enough. -/
theorem to_bytes_fst_of_le (sha256 : List Nat → List Nat) (en_words : words)
    (w : Option words) (m : String) (bytes bytes2 : List Nat) (len len2 : Nat)
    (h1 : (mnemonic_to_bytes (w.getD en_words) m 33).1 - 1 ≤ len)
    (h2 : (mnemonic_to_bytes (w.getD en_words) m 33).1 - 1 ≤ len2) :
    (bip39_mnemonic_to_bytes sha256 en_words w m bytes len).1
      = (bip39_mnemonic_to_bytes sha256 en_words w m bytes2 len2).1 := by
  by_cases hbits : (w.getD en_words).bits = 11
  · rw [to_bytes_eq sha256 en_words w m bytes len hbits,
      to_bytes_eq sha256 en_words w m bytes2 len2 hbits]
    have n1 := Nat.not_lt.mpr h1
    have n2 := Nat.not_lt.mpr h2
    simp only [n1, n2, if_false]
    split_ifs <;> rfl
  · rw [to_bytes_bad_bits sha256 en_words w m bytes len hbits,
      to_bytes_bad_bits sha256 en_words w m bytes2 len2 hbits]

theorem mask_testBit (L k : Nat) (hL : validLen L) (hk : 8 - L / 4 ≤ k) (hk8 : k < 8) :
    (entropy_len_to_mask L).testBit k = true := by
  rcases hL with rfl | rfl | rfl | rfl | rfl <;>
    simp only [entropy_len_to_mask, BIP39_ENTROPY_LEN_128, BIP39_ENTROPY_LEN_160,
      BIP39_ENTROPY_LEN_192, BIP39_ENTROPY_LEN_224, BIP39_ENTROPY_LEN_256, Nat.reduceDiv,
      Nat.reduceEqDiff, if_true, if_false] <;>
    (norm_num at hk; interval_cases k <;> decide)

theorem flip_land_ne (c mask k : Nat) (hk : mask.testBit k = true) :
    (c ^^^ 2 ^ k) &&& mask ≠ c &&& mask := by
  intro h
  have h2 := congrArg (fun x => Nat.testBit x k) h
  simp only [Nat.testBit_and, Nat.testBit_xor, Nat.testBit_two_pow_self, hk, Bool.and_true] at h2
  cases hc : c.testBit k <;> simp [hc] at h2

/-! ## The concrete wordlist -/

theorem unaryWords_inverse : unaryWords.inverse := by
  constructor
  · intro i hi
    have hi2 : i + 1 ≤ 2048 := by
      have : (2 : Nat) ^ unaryWords.bits = 2048 := by decide
      omega
    simp [unaryWords, hi2]
  · intro s i h
    simp only [unaryWords] at h ⊢
    split_ifs at h with hc
    obtain ⟨h1, h2, h3⟩ := hc
    have hpos : 0 < s.data.length := List.length_pos.mpr h1
    have hi : i = s.data.length - 1 := by
      simpa using h.symm
    subst hi
    refine ⟨by have h11 : (2 : Nat) ^ 11 = 2048 := by decide
               omega, ?_⟩
    have hrep : s.data = List.replicate s.data.length 'a' := by
      rw [List.eq_replicate_iff]
      refine ⟨rfl, ?_⟩
      intro c hc
      have := List.all_eq_true.mp h3 c hc
      simpa using this
    have hsucc : s.data.length - 1 + 1 = s.data.length := by omega
    rw [hsucc, ← hrep]

theorem unaryWords_spaceFree : unaryWords.spaceFree := by
  intro i _ h
  simp only [unaryWords] at h
  have := (List.mem_replicate.mp h).2
  exact absurd this (by decide)

/-! ## The encode path and the reverse direction -/

theorem mnemonic_from_bytes_eq (w : words) (bytes : List Nat) (len : Nat) :
    mnemonic_from_bytes w bytes len = some (String.mk (joinWords
      ((mnemonic_indices w bytes len).map (fun i => (w.word_at i).data)))) := rfl

theorem from_bytes_eq (sha256 : List Nat → List Nat) (en_words : words)
    (w : Option words) (bytes : List Nat) (len : Nat)
    (hbits : (w.getD en_words).bits = 11) (hv : validLen len) :
    bip39_mnemonic_from_bytes sha256 en_words w bytes len
      = mnemonic_from_bytes (w.getD en_words) (checksummed_bytes sha256 bytes len) (len + 1) := by
  have hmask : entropy_len_to_mask len ≠ 0 := by
    rw [Ne, mask_eq_zero_iff]; exact not_not.mpr hv
  simp [bip39_mnemonic_from_bytes, checksummed_bytes, hbits, hmask]

theorem mnemonic_indices_length (w : words) (bytes : List Nat) (len : Nat) :
    (mnemonic_indices w bytes len).length = len * 8 / w.bits := by
  simp [mnemonic_indices, groups_length]

theorem mnemonic_indices_lt (w : words) (bytes : List Nat) (len : Nat) :
    ∀ i ∈ mnemonic_indices w bytes len, i < 2 ^ w.bits :=
  groups_val_lt _ _ _

theorem word_indices_none (w : words) (toks : List String)
    (h : ∃ t ∈ toks, w.index_of t = none) : word_indices w toks = none := by
  induction toks with
  | nil => simp at h
  | cons t ts ih =>
    obtain ⟨u, hu, hnone⟩ := h
    simp only [List.mem_cons] at hu
    rcases hu with rfl | hu
    · simp [word_indices, hnone]
    · have := ih ⟨u, hu, hnone⟩
      simp only [word_indices, this]
      cases w.index_of t <;> rfl

theorem joinWords_splitWords (cs : List Char) : joinWords (splitWords cs) = cs := by
  induction cs with
  | nil => rfl
  | cons c cs ih =>
    have hne := splitWords_ne_nil cs
    cases hs : splitWords cs with
    | nil => exact absurd hs hne
    | cons t ts =>
      rw [hs] at ih
      by_cases hc : c = ' '
      · subst hc
        simp only [splitWords, hs, if_true, joinWords, List.nil_append, ih]
      · simp only [splitWords, hs, hc, if_false]
        cases ts with
        | nil =>
          simp only [joinWords] at ih ⊢
          rw [ih]
        | cons u us =>
          simp only [joinWords, List.cons_append] at ih ⊢
          rw [ih]

theorem word_indices_some (w : words) (hinv : w.inverse) (toks : List String)
    (idxs : List Nat) (h : word_indices w toks = some idxs) :
    toks = idxs.map w.word_at ∧ (∀ i ∈ idxs, i < 2 ^ w.bits) ∧
      idxs.length = toks.length := by
  induction toks generalizing idxs with
  | nil =>
    simp only [word_indices, Option.some.injEq] at h
    subst h
    simp
  | cons t ts ih =>
    simp only [word_indices] at h
    cases hi : w.index_of t with
    | none => simp [hi] at h
    | some i =>
      cases hr : word_indices w ts with
      | none => simp [hi, hr] at h
      | some is =>
        simp only [hi, hr, Option.some.injEq] at h
        subst h
        obtain ⟨h1, h2, h3⟩ := ih is hr
        obtain ⟨hlt, hword⟩ := hinv.2 t i hi
        refine ⟨?_, ?_, ?_⟩
        · simp only [List.map_cons, hword, ← h1]
        · intro x hx
          simp only [List.mem_cons] at hx
          rcases hx with rfl | hx
          · exact hlt
          · exact h2 x hx
        · simp [h3]

theorem flatMap_natBits_length (k : Nat) (idxs : List Nat) :
    (idxs.flatMap (natBits k)).length = k * idxs.length := by
  induction idxs with
  | nil => rfl
  | cons i is ih =>
    simp only [List.flatMap_cons, List.length_append, natBits_length, ih, List.length_cons]
    ring

theorem groups_natBits (k : Nat) (idxs : List Nat) (h : ∀ i ∈ idxs, i < 2 ^ k)
    (rest : List Bool) :
    (groups k idxs.length (idxs.flatMap (natBits k) ++ rest)).map bitsVal = idxs := by
  induction idxs with
  | nil => rfl
  | cons i is ih =>
    have hl : (natBits k i).length = k := natBits_length k i
    have e1 : List.take k (natBits k i ++ (is.flatMap (natBits k) ++ rest)) = natBits k i := by
      rw [List.take_append_of_le_length (by omega), List.take_of_length_le (by omega)]
    have e2 : List.drop k (natBits k i ++ (is.flatMap (natBits k) ++ rest))
        = is.flatMap (natBits k) ++ rest := by
      rw [List.drop_append_of_le_length (by omega), List.drop_of_length_le (by omega)]
      rfl
    have e3 : bitsVal (natBits k i) = i := by
      rw [bitsVal_natBits]; exact Nat.mod_eq_of_lt (h i (by simp))
    simp only [List.length_cons, groups, List.flatMap_cons, List.append_assoc, List.map_cons,
      e1, e2, e3, ih (fun x hx => h x (by simp [hx]))]

theorem bytesBits_groups (T : Nat) (l : List Bool) (h : l.length = 8 * T) :
    bytesBits ((groups 8 T l).map bitsVal) = l := by
  induction T generalizing l with
  | zero =>
    have : l = [] := List.length_eq_zero.mp (by simpa using h)
    subst this
    rfl
  | succ T ih =>
    have hlen : (l.take 8).length = 8 := by simp; omega
    have hd : (l.drop 8).length = 8 * T := by simp; omega
    have h1 : natBits 8 (bitsVal (l.take 8)) = l.take 8 := by
      have := natBits_bitsVal (l.take 8)
      rwa [hlen] at this
    have ih2 := ih (l.drop 8) hd
    simp only [bytesBits] at ih2
    simp only [groups, List.map_cons, bytesBits, List.flatMap_cons, h1, ih2,
      List.take_append_drop]

theorem bitsVal_inj (l1 l2 : List Bool) (hlen : l1.length = l2.length)
    (h : bitsVal l1 = bitsVal l2) : l1 = l2 := by
  rw [← natBits_bitsVal l1, ← natBits_bitsVal l2, hlen, h]

theorem topBits_eq_land (L : Nat) (hL : validLen L) (c : Nat) (hc : c < 256) :
    topBits (L / 4) c = c &&& entropy_len_to_mask L := by
  obtain ⟨h4, h5, h6, h7, h8⟩ := topBits_mask c hc
  rcases hL with rfl | rfl | rfl | rfl | rfl <;>
    simp only [entropy_len_to_mask, BIP39_ENTROPY_LEN_128, BIP39_ENTROPY_LEN_160,
      BIP39_ENTROPY_LEN_192, BIP39_ENTROPY_LEN_224, BIP39_ENTROPY_LEN_256, Nat.reduceDiv,
      Nat.reduceEqDiff, if_true, if_false, h4, h5, h6, h7, h8]

theorem take_natBits_of_topBits (j c d : Nat) (h : topBits j c = topBits j d) :
    (natBits 8 c).take j = (natBits 8 d).take j := by
  have hl : ((natBits 8 c).take j).length = ((natBits 8 d).take j).length := by
    simp [natBits_length]
  have := bitsVal_inj _ _ (by simp [natBits_length]) h
  exact List.append_inj_left this hl

theorem mnemonic_to_bytes_lt (w : words) (m : String) (cap : Nat) :
    ∀ b ∈ (mnemonic_to_bytes w m cap).2, b < 256 := by
  simp only [mnemonic_to_bytes]
  cases h : word_indices w ((splitWords m.data).map String.mk) with
  | none => simp
  | some idxs =>
    simp only
    split_ifs
    · simp
    · intro b hb
      simpa using groups_val_lt 8 _ _ b hb

/-- Packing what a phrase unpacked to gives the phrase back: if the phrase unpacks to
`L + 1` bytes `p`, then packing `p[0..L)` followed by any byte `c` that agrees with `p[L]`
on its top `j` bits yields the same phrase. -/
theorem pack_unpack (w : words) (hbits : w.bits = 11) (hinv : w.inverse) (m : String)
    (L j cap : Nat) (p : List Nat) (c : Nat)
    (hu : mnemonic_to_bytes w m cap = (L + 1, p))
    (hj : 11 * word_count m = 8 * L + j) (hj0 : 0 < j) (hj8 : j ≤ 8)
    (hck : topBits j (p.getD L 0) = topBits j c) :
    mnemonic_from_bytes w (p.take L ++ [c]) (L + 1) = some m := by
  simp only [mnemonic_to_bytes, word_count] at hu hj
  cases hwi : word_indices w ((splitWords m.data).map String.mk) with
  | none => simp [hwi] at hu
  | some idxs =>
    obtain ⟨htoks, hlt, hilen⟩ := word_indices_some w hinv _ idxs hwi
    simp only [List.length_map] at hilen
    simp only [hwi, hbits, List.length_map] at hu
    have hT : ((splitWords m.data).length * 11 + 7) / 8 = L + 1 := by omega
    rw [hT] at hu
    split_ifs at hu with hcap
    · simp at hu
    simp only [Prod.mk.injEq, true_and] at hu
    set pbits := idxs.flatMap (natBits 11) with hpbits
    have hpl : pbits.length = 11 * idxs.length := flatMap_natBits_length 11 idxs
    have hpl2 : pbits.length = 8 * L + j := by rw [hpl, hilen]; exact hj
    set padded := pbits ++ List.replicate (8 * (L + 1) - pbits.length) false with hpadded
    have hpadlen : padded.length = 8 * (L + 1) := by
      simp only [hpadded, List.length_append, List.length_replicate]
      omega
    have hbb : bytesBits p = padded := by
      rw [← hu]; exact bytesBits_groups (L + 1) padded hpadlen
    have hplen : p.length = L + 1 := by
      rw [← hu]; simp [groups_length]
    have hsplit : p = p.take L ++ [p.getD L 0] := by
      have h1 : p.take (L + 1) = p := List.take_of_length_le (by omega)
      have h2 : p.take (L + 1) = p.take L ++ [p[L]] := by
        rw [List.take_succ, List.getElem?_eq_getElem (by omega)]
        rfl
      have h3 : p.getD L 0 = p[L] := by
        simp [List.getD_eq_getElem?_getD, List.getElem?_eq_getElem (show L < p.length by omega)]
      rw [h3, ← h2, h1]
    have hel : (bytesBits (p.take L)).length = 8 * L := by
      rw [bytesBits_length, List.length_take, hplen]; omega
    have hpb : pbits = bytesBits (p.take L) ++ (natBits 8 (p.getD L 0)).take j := by
      have h1 : padded.take (8 * L + j) = pbits := by
        rw [hpadded, List.take_append_of_le_length (by omega),
          List.take_of_length_le (by omega)]
      rw [← h1, ← hbb]
      conv_lhs => rw [hsplit]
      rw [bytesBits_append, List.take_append_eq_append_take, hel,
        List.take_of_length_le (by omega)]
      have : 8 * L + j - 8 * L = j := by omega
      rw [this]
      simp [bytesBits]
    have hB : bytesBits (p.take L ++ [c]) = pbits ++ (natBits 8 c).drop j := by
      rw [hpb, take_natBits_of_topBits j _ _ hck, bytesBits_append, List.append_assoc,
        List.take_append_drop]
      simp [bytesBits]
    have htot : (L + 1) * 8 / 11 = idxs.length := by omega
    have htake : (p.take L ++ [c]).take (L + 1) = p.take L ++ [c] := by
      apply List.take_of_length_le
      simp [List.length_take, hplen]
    have hidx : (groups 11 idxs.length (pbits ++ (natBits 8 c).drop j)).map bitsVal = idxs :=
      groups_natBits 11 idxs (by simpa [hbits] using hlt) _
    simp only [mnemonic_from_bytes, hbits, htot, htake, hB, hidx, Option.some.injEq]
    have hw : idxs.map (fun i => (w.word_at i).data) = splitWords m.data := by
      have := congrArg (List.map String.data) htoks
      simp only [List.map_map] at this
      have hid : (String.data ∘ String.mk) = id := rfl
      rw [hid, List.map_id] at this
      rw [this]
      rfl
    rw [hw, joinWords_splitWords]

/-! ## The all-zero test vector -/

set_option maxRecDepth 100000 in
theorem zero_payload_indices :
    (groups 11 12 (bytesBits (zeroEntropy ++ [0x37]))).map bitsVal
      = [0, 0, 0, 0, 0, 0, 0, 0, 0, 0, 0, 3] := by
  decide

set_option maxRecDepth 100000 in
theorem zeroPhrase_tokens :
    (splitWords zeroPhrase.data).map String.mk
      = ["abandon", "abandon", "abandon", "abandon", "abandon", "abandon", "abandon",
          "abandon", "abandon", "abandon", "abandon", "about"] := by
  decide

set_option maxRecDepth 100000 in
theorem zero_payload_bytes :
    (groups 8 17 (([0, 0, 0, 0, 0, 0, 0, 0, 0, 0, 0, 3] : List Nat).flatMap (natBits 11)
        ++ List.replicate (8 * 17 - 132) false)).map bitsVal
      = zeroEntropy ++ [0x30] := by
  decide

/-! ## The decode over an arbitrary unpacking step -/

theorem to_bytes_with_of_unpack (unpack : words → String → Nat → Nat × List Nat)
    (sha256 : List Nat → List Nat) (en_words : words)
    (w : Option words) (m : String) (bytes : List Nat) (len T : Nat) (p : List Nat)
    (hbits : (w.getD en_words).bits = 11)
    (hu : unpack (w.getD en_words) m 33 = (T, p)) :
    bip39_mnemonic_to_bytes_with unpack sha256 en_words w m bytes len =
      if T = 0 ∨ entropy_len_to_mask (T - 1) = 0 then (0, bytes)
      else if len < T - 1 then (0, bytes)
      else if p.getD (T - 1) 0 &&& entropy_len_to_mask (T - 1)
          ≠ digest0 sha256 (p.take (T - 1)) &&& entropy_len_to_mask (T - 1) then (0, bytes)
      else (T - 1, p.take (T - 1) ++ bytes.drop (T - 1)) := by
  simp only [bip39_mnemonic_to_bytes_with, hbits, BIP39_ENTROPY_LEN_256, hu]
  simp

/-! ## The contract of the codec -/

/-- C1 (round trip). For every wordlist `w` with `bits = 11` whose `index_of` and `word_at`
are mutual inverses (its entries being words, free of the separator), every entropy `e` of
bytes whose length `L` is one of 16, 20, 24, 28, 32, and every caller buffer of declared
length `len >= L`: encoding `e` yields a phrase, and decoding that phrase returns `L` and
puts exactly `e` in the first `L` bytes of the buffer, the rest being untouched. -/
theorem bip39_round_trip (sha256 : List Nat → List Nat) (en_words w : words)
    (hbits : w.bits = 11) (hinv : w.inverse) (hsep : w.spaceFree)
    (e : List Nat) (he : ∀ b ∈ e, b < 256) (hL : validLen e.length)
    (bytes : List Nat) (len : Nat) (hlen : e.length ≤ len) :
    ∃ m, bip39_mnemonic_from_bytes sha256 en_words (some w) e e.length = some m ∧
      bip39_mnemonic_to_bytes sha256 en_words (some w) m bytes len
        = (e.length, e ++ bytes.drop e.length) := by
  have hmask : entropy_len_to_mask e.length ≠ 0 := by
    rw [Ne, mask_eq_zero_iff]; exact not_not.mpr hL
  have hinv1 : ∀ i < 2048, w.index_of (w.word_at i) = some i := by
    intro i hi; exact hinv.1 i (by rw [hbits]; exact hi)
  have hsep1 : ∀ i < 2048, ' ' ∉ (w.word_at i).data := by
    intro i hi; exact hsep i (by rw [hbits]; exact hi)
  set c := digest0 sha256 e with hc
  have hc256 : c < 256 := digest0_lt sha256 e
  have henc : bip39_mnemonic_from_bytes sha256 en_words (some w) e e.length
      = mnemonic_from_bytes w (e ++ [c]) (e.length + 1) := by
    simp [bip39_mnemonic_from_bytes, hbits, hmask, List.take_length, hc]
  obtain ⟨m, hm⟩ : ∃ m, mnemonic_from_bytes w (e ++ [c]) (e.length + 1) = some m :=
    ⟨_, rfl⟩
  refine ⟨m, henc.trans hm, ?_⟩
  have hn : ∃ n, 11 * n = 8 * e.length + e.length / 4 ∧ 0 < e.length / 4
      ∧ e.length / 4 ≤ 8 ∧ e.length + 1 ≤ 33 := by
    rcases hL with h | h | h | h | h <;> rw [h]
    · exact ⟨12, by decide⟩
    · exact ⟨15, by decide⟩
    · exact ⟨18, by decide⟩
    · exact ⟨21, by decide⟩
    · exact ⟨24, by decide⟩
  obtain ⟨n, hn, hj0, hj8, hcap⟩ := hn
  have hu := unpack_pack w hbits hinv1 hsep1 e c he e.length n (e.length / 4) 33 rfl hn
    hj0 hj8 hcap m hm
  rw [to_bytes_of_unpack sha256 en_words (some w) m bytes len _ _ hbits hu]
  have hget : (e ++ [topBits (e.length / 4) c]).getD e.length 0 = topBits (e.length / 4) c := by
    simp [List.getD_eq_getElem?_getD]
  have htk : (e ++ [topBits (e.length / 4) c]).take e.length = e := by simp
  simp only [Nat.add_sub_cancel, hget, htk, ← hc, topBits_land _ hL c hc256]
  simp [hmask]
  omega

theorem bip39_round_trip_witness :
    ∃ m, bip39_mnemonic_from_bytes sumHash unaryWords (some unaryWords) sampleEntropy
          sampleEntropy.length = some m ∧
      bip39_mnemonic_to_bytes sumHash unaryWords (some unaryWords) m (List.replicate 20 7) 20
        = (sampleEntropy.length,
            sampleEntropy ++ (List.replicate 20 7).drop sampleEntropy.length) :=
  bip39_round_trip sumHash unaryWords unaryWords rfl unaryWords_inverse unaryWords_spaceFree
    sampleEntropy (by decide) (by decide) (List.replicate 20 7) 20 (by decide)

/-- C2 (encode length validation). With a wordlist of bit width 11,
`bip39_mnemonic_from_bytes` returns `NULL` exactly when the length argument is not one of
16, 20, 24, 28, 32, whatever the hash primitive and the bytes are; a length that passes
the check hands the checksummed payload of `len + 1` bytes to the packing step. -/
theorem bip39_encode_length_check (sha256 : List Nat → List Nat) (en_words : words)
    (w : Option words) (bytes : List Nat) (len : Nat)
    (hbits : (w.getD en_words).bits = 11) :
    (bip39_mnemonic_from_bytes sha256 en_words w bytes len = none ↔ ¬ validLen len) ∧
    (validLen len → bip39_mnemonic_from_bytes sha256 en_words w bytes len
      = mnemonic_from_bytes (w.getD en_words)
          (bytes.take len ++ [digest0 sha256 (bytes.take len)]) (len + 1)) := by
  by_cases hv : validLen len
  · have hmask : entropy_len_to_mask len ≠ 0 := by
      rw [Ne, mask_eq_zero_iff]; exact not_not.mpr hv
    have heq : bip39_mnemonic_from_bytes sha256 en_words w bytes len
        = mnemonic_from_bytes (w.getD en_words)
            (bytes.take len ++ [digest0 sha256 (bytes.take len)]) (len + 1) := by
      simp [bip39_mnemonic_from_bytes, hbits, hmask]
    refine ⟨?_, fun _ => heq⟩
    rw [heq]
    simp [mnemonic_from_bytes, hv]
  · have hmask : entropy_len_to_mask len = 0 := (mask_eq_zero_iff len).mpr hv
    refine ⟨?_, fun h => absurd h hv⟩
    simp [bip39_mnemonic_from_bytes, hmask, hv]

theorem bip39_encode_length_check_witness :
    unaryWords.bits = 11 ∧
    ((bip39_mnemonic_from_bytes sumHash unaryWords none (List.replicate 17 0) 17 = none
        ↔ ¬ validLen 17) ∧
      (validLen 17 → bip39_mnemonic_from_bytes sumHash unaryWords none (List.replicate 17 0) 17
        = mnemonic_from_bytes ((none : Option words).getD unaryWords)
            ((List.replicate 17 0).take 17 ++ [digest0 sumHash ((List.replicate 17 0).take 17)])
            (17 + 1))) :=
  ⟨rfl, bip39_encode_length_check sumHash unaryWords none (List.replicate 17 0) 17 rfl⟩

/-- C3 (decode word-count acceptance). The unpacking step gives a phrase of `n` known
words a payload of `ceil(11 * n / 8)` bytes in the 33-byte scratch buffer, so a phrase
whose word count is not one of 12, 15, 18, 21, 24 (0 and every count above 24 included)
makes `bip39_mnemonic_to_bytes` return 0, whatever the words, the wordlist, the hash and
the caller's buffer are. -/
theorem bip39_decode_word_count (sha256 : List Nat → List Nat) (en_words : words)
    (w : Option words) (m : String) (bytes : List Nat) (len : Nat)
    (hn : word_count m ≠ 12 ∧ word_count m ≠ 15 ∧ word_count m ≠ 18 ∧ word_count m ≠ 21
      ∧ word_count m ≠ 24) :
    (bip39_mnemonic_to_bytes sha256 en_words w m bytes len).1 = 0 := by
  by_contra h
  obtain ⟨hbits, hv, _, _⟩ := to_bytes_ne_zero sha256 en_words w m bytes len h
  rcases mnemonic_to_bytes_fst (w.getD en_words) m 33 with h0 | ⟨h1, _⟩
  · rw [h0] at hv
    exact validLen_ne_zero hv rfl
  · rw [h1, hbits] at hv
    rcases hv with hv | hv | hv | hv | hv <;> omega

theorem bip39_decode_word_count_witness :
    (word_count "a a a" ≠ 12 ∧ word_count "a a a" ≠ 15 ∧ word_count "a a a" ≠ 18
      ∧ word_count "a a a" ≠ 21 ∧ word_count "a a a" ≠ 24) ∧
    (bip39_mnemonic_to_bytes sumHash unaryWords none "a a a" (List.replicate 33 0) 33).1 = 0 :=
  ⟨by decide, bip39_decode_word_count sumHash unaryWords none "a a a" (List.replicate 33 0) 33
    (by decide)⟩

/-- C4 (checksum sensitivity). Let `e` be an entropy of supported length `L`, `c` the
first digest byte of `e`, and `k` one of the bit positions the mask of `L` covers (the top
`L / 4` bits of a byte). A phrase whose unpacked payload is `e` followed by a trailing byte
that equals `c` with bit `k` flipped (on the bits the mask covers; in particular the byte
`c xor 2^k` itself) makes `bip39_mnemonic_to_bytes` return 0, whatever the caller's buffer
and its length are. -/
theorem bip39_checksum_sensitivity (sha256 : List Nat → List Nat) (en_words : words)
    (w : Option words) (m : String) (bytes : List Nat) (len : Nat) (e : List Nat) (t k : Nat)
    (hbits : (w.getD en_words).bits = 11) (hL : validLen e.length)
    (hk : 8 - e.length / 4 ≤ k) (hk8 : k < 8)
    (hu : mnemonic_to_bytes (w.getD en_words) m (BIP39_ENTROPY_LEN_256 + 1)
      = (e.length + 1, e ++ [t]))
    (ht : t &&& entropy_len_to_mask e.length
      = (digest0 sha256 e ^^^ 2 ^ k) &&& entropy_len_to_mask e.length) :
    (bip39_mnemonic_to_bytes sha256 en_words w m bytes len).1 = 0 := by
  rw [to_bytes_of_unpack sha256 en_words w m bytes len _ _ hbits hu]
  have hget : (e ++ [t]).getD e.length 0 = t := by simp [List.getD_eq_getElem?_getD]
  have htk : (e ++ [t]).take e.length = e := by simp
  have hne := flip_land_ne (digest0 sha256 e) _ k (mask_testBit e.length k hL hk hk8)
  simp only [Nat.add_sub_cancel, hget, htk, ht]
  rw [if_pos hne]
  split_ifs <;> rfl

set_option maxRecDepth 100000 in
theorem bip39_checksum_sensitivity_witness :
    (bip39_mnemonic_to_bytes sumHash unaryWords none "a a a a a a a a a a a aaaaaaaaaaaa"
      (List.replicate 16 7) 16).1 = 0 :=
  bip39_checksum_sensitivity sumHash unaryWords none "a a a a a a a a a a a aaaaaaaaaaaa"
    (List.replicate 16 7) 16 (List.replicate 16 0) 0xb0 7 rfl (by decide) (by decide)
    (by decide) (by decide) (by decide)

/-- C5 (the checksum comparison is masked). For every unpacking step (whatever it leaves
in the bits of the trailing byte below the checksum), a phrase whose unpacked payload `p`
has a supported length `L + 1` and a caller buffer of declared length `len >= L`:
the decode succeeds exactly when `p[L] & mask(L)` equals `hash(p[0..L))[0] & mask(L)`.
Hence a second phrase or unpacking whose payload differs from `p` only in bits of the
trailing byte outside `mask(L)` gets the same decode result. With the unpacking step
`mnemonic_to_bytes` the function is `bip39_mnemonic_to_bytes`. -/
theorem bip39_checksum_masked (unpack : words → String → Nat → Nat × List Nat)
    (sha256 : List Nat → List Nat) (en_words : words)
    (w : Option words) (m : String) (bytes : List Nat) (len L : Nat) (p : List Nat)
    (hbits : (w.getD en_words).bits = 11) (hL : validLen L)
    (hu : unpack (w.getD en_words) m (BIP39_ENTROPY_LEN_256 + 1) = (L + 1, p))
    (hlen : L ≤ len) :
    (∀ (m0 : String) (bytes0 : List Nat) (len0 : Nat),
      bip39_mnemonic_to_bytes_with mnemonic_to_bytes sha256 en_words w m0 bytes0 len0
        = bip39_mnemonic_to_bytes sha256 en_words w m0 bytes0 len0) ∧
    ((bip39_mnemonic_to_bytes_with unpack sha256 en_words w m bytes len).1 ≠ 0 ↔
      p.getD L 0 &&& entropy_len_to_mask L
        = digest0 sha256 (p.take L) &&& entropy_len_to_mask L) ∧
    (∀ (unpack2 : words → String → Nat → Nat × List Nat) (m2 : String) (p2 : List Nat),
      unpack2 (w.getD en_words) m2 (BIP39_ENTROPY_LEN_256 + 1) = (L + 1, p2) →
      p2.take L = p.take L →
      p2.getD L 0 &&& entropy_len_to_mask L = p.getD L 0 &&& entropy_len_to_mask L →
      bip39_mnemonic_to_bytes_with unpack2 sha256 en_words w m2 bytes len
        = bip39_mnemonic_to_bytes_with unpack sha256 en_words w m bytes len) := by
  have hmask : entropy_len_to_mask L ≠ 0 := by
    rw [Ne, mask_eq_zero_iff]; exact not_not.mpr hL
  have hnl : ¬ len < L := Nat.not_lt.mpr hlen
  have hL0 : L ≠ 0 := validLen_ne_zero hL
  refine ⟨fun _ _ _ => rfl, ?_, ?_⟩
  · rw [to_bytes_with_of_unpack unpack sha256 en_words w m bytes len _ _ hbits hu]
    simp only [Nat.add_sub_cancel, Nat.succ_ne_zero, hmask, or_self, if_false, hnl]
    split_ifs with h
    · simp only [ne_eq, not_true_eq_false, false_iff]
      exact h
    · simp only [ne_eq, hL0, not_false_eq_true, true_iff]
      exact not_not.mp h
  · intro unpack2 m2 p2 hu2 htake hlast
    rw [to_bytes_with_of_unpack unpack sha256 en_words w m bytes len _ _ hbits hu,
      to_bytes_with_of_unpack unpack2 sha256 en_words w m2 bytes len _ _ hbits hu2]
    simp only [Nat.add_sub_cancel, htake, hlast]

set_option maxRecDepth 100000 in
theorem bip39_checksum_masked_witness :
    mnemonic_to_bytes unaryWords "a a a a a a a a a a a aaaa" 33
      = (17, [0, 0, 0, 0, 0, 0, 0, 0, 0, 0, 0, 0, 0, 0, 0, 0, 0x30]) ∧
    mnemonic_to_bytes_ones unaryWords "a a a a a a a a a a a aaaa" 33
      = (17, [0, 0, 0, 0, 0, 0, 0, 0, 0, 0, 0, 0, 0, 0, 0, 0, 0x3f]) ∧
    (bip39_mnemonic_to_bytes_with mnemonic_to_bytes_ones sumHash unaryWords none
      "a a a a a a a a a a a aaaa" (List.replicate 16 7) 16).1 ≠ 0 ∧
    bip39_mnemonic_to_bytes_with mnemonic_to_bytes_ones sumHash unaryWords none
        "a a a a a a a a a a a aaaa" (List.replicate 16 7) 16
      = bip39_mnemonic_to_bytes_with mnemonic_to_bytes sumHash unaryWords none
        "a a a a a a a a a a a aaaa" (List.replicate 16 7) 16 ∧
    bip39_mnemonic_to_bytes_with mnemonic_to_bytes sumHash unaryWords none
        "a a a a a a a a a a a aaaa" (List.replicate 16 7) 16
      = bip39_mnemonic_to_bytes sumHash unaryWords none
        "a a a a a a a a a a a aaaa" (List.replicate 16 7) 16 :=
  ⟨by decide, by decide,
    (bip39_checksum_masked mnemonic_to_bytes_ones sumHash unaryWords none
      "a a a a a a a a a a a aaaa" (List.replicate 16 7) 16 16
      [0, 0, 0, 0, 0, 0, 0, 0, 0, 0, 0, 0, 0, 0, 0, 0, 0x3f]
      rfl (by decide) (by decide) (by decide)).2.1.mpr (by decide),
    (bip39_checksum_masked mnemonic_to_bytes sumHash unaryWords none
      "a a a a a a a a a a a aaaa" (List.replicate 16 7) 16 16
      [0, 0, 0, 0, 0, 0, 0, 0, 0, 0, 0, 0, 0, 0, 0, 0, 0x30]
      rfl (by decide) (by decide) (by decide)).2.2 mnemonic_to_bytes_ones
      "a a a a a a a a a a a aaaa" [0, 0, 0, 0, 0, 0, 0, 0, 0, 0, 0, 0, 0, 0, 0, 0, 0x3f]
      (by decide) (by decide) (by decide),
    (bip39_checksum_masked mnemonic_to_bytes sumHash unaryWords none
      "a a a a a a a a a a a aaaa" (List.replicate 16 7) 16 16
      [0, 0, 0, 0, 0, 0, 0, 0, 0, 0, 0, 0, 0, 0, 0, 0, 0x30]
      rfl (by decide) (by decide) (by decide)).1 _ _ _⟩

/-- C6 (buffer too small). For a phrase whose unpacked payload has length `L + 1`, a call
with a declared buffer length `len < L` returns 0 and leaves the buffer alone, even when the
checksum is right; and for declared lengths `len1, len2 >= L` the result is the same, so
the buffer size is never the cause of a failure there. -/
theorem bip39_buffer_too_small (sha256 : List Nat → List Nat) (en_words : words)
    (w : Option words) (m : String) (bytes : List Nat) (L : Nat) (p : List Nat)
    (hu : mnemonic_to_bytes (w.getD en_words) m (BIP39_ENTROPY_LEN_256 + 1) = (L + 1, p)) :
    (∀ len, len < L →
      bip39_mnemonic_to_bytes sha256 en_words w m bytes len = (0, bytes)) ∧
    (∀ len1 len2, L ≤ len1 → L ≤ len2 →
      bip39_mnemonic_to_bytes sha256 en_words w m bytes len1
        = bip39_mnemonic_to_bytes sha256 en_words w m bytes len2) := by
  by_cases hbits : (w.getD en_words).bits = 11
  · constructor
    · intro len hlen
      rw [to_bytes_of_unpack sha256 en_words w m bytes len _ _ hbits hu]
      simp only [Nat.add_sub_cancel, hlen, if_true]
      split_ifs <;> rfl
    · intro len1 len2 h1 h2
      rw [to_bytes_of_unpack sha256 en_words w m bytes len1 _ _ hbits hu,
        to_bytes_of_unpack sha256 en_words w m bytes len2 _ _ hbits hu]
      simp only [Nat.add_sub_cancel, Nat.not_lt.mpr h1, Nat.not_lt.mpr h2, if_false]
  · constructor
    · intro len _
      exact to_bytes_bad_bits sha256 en_words w m bytes len hbits
    · intro len1 len2 _ _
      rw [to_bytes_bad_bits sha256 en_words w m bytes len1 hbits,
        to_bytes_bad_bits sha256 en_words w m bytes len2 hbits]

set_option maxRecDepth 100000 in
theorem bip39_buffer_too_small_witness :
    (∀ len, len < 16 →
      bip39_mnemonic_to_bytes sumHash unaryWords none "a a a a a a a a a a a aaaa"
        (List.replicate 16 7) len = (0, List.replicate 16 7)) ∧
    (∀ len1 len2, 16 ≤ len1 → 16 ≤ len2 →
      bip39_mnemonic_to_bytes sumHash unaryWords none "a a a a a a a a a a a aaaa"
          (List.replicate 16 7) len1
        = bip39_mnemonic_to_bytes sumHash unaryWords none "a a a a a a a a a a a aaaa"
          (List.replicate 16 7) len2) :=
  bip39_buffer_too_small sumHash unaryWords none "a a a a a a a a a a a aaaa"
    (List.replicate 16 7) 16 [0, 0, 0, 0, 0, 0, 0, 0, 0, 0, 0, 0, 0, 0, 0, 0, 0x30] (by decide)

/-- C7 (atomicity of decode). Whenever `bip39_mnemonic_to_bytes` returns 0, for whatever
reason (bit width of the wordlist, unknown word, word count, buffer too small, checksum),
the caller's buffer is byte for byte what it was before the call. -/
theorem bip39_decode_atomic (sha256 : List Nat → List Nat) (en_words : words)
    (w : Option words) (m : String) (bytes : List Nat) (len : Nat)
    (h : (bip39_mnemonic_to_bytes sha256 en_words w m bytes len).1 = 0) :
    (bip39_mnemonic_to_bytes sha256 en_words w m bytes len).2 = bytes := by
  by_cases hbits : (w.getD en_words).bits = 11
  · rw [to_bytes_eq sha256 en_words w m bytes len hbits] at h ⊢
    split_ifs at h ⊢ with h1 h2 h3
    · rfl
    · rfl
    · rfl
    · exfalso
      apply h1
      right
      have h0 : (mnemonic_to_bytes (w.getD en_words) m 33).1 - 1 = 0 := h
      rw [h0]
      rfl
  · rw [to_bytes_bad_bits sha256 en_words w m bytes len hbits]

set_option maxRecDepth 100000 in
theorem bip39_decode_atomic_witness :
    (bip39_mnemonic_to_bytes sumHash unaryWords none "a a a a a a a a a a a aaaaa"
      (List.replicate 20 7) 20).1 = 0 ∧
    (bip39_mnemonic_to_bytes sumHash unaryWords none "a a a a a a a a a a a aaaaa"
      (List.replicate 20 7) 20).2 = List.replicate 20 7 :=
  ⟨by decide, bip39_decode_atomic sumHash unaryWords none "a a a a a a a a a a a aaaaa"
    (List.replicate 20 7) 20 (by decide)⟩

/-- C8 (decode success postcondition). Whenever `bip39_mnemonic_to_bytes` returns a
non-zero `r`: `r` is one of 16, 20, 24, 28, 32; `r` is the length of the unpacked payload
minus 1; `r` is at most the declared buffer length; the first `r` bytes of the caller's
buffer are the unpacked payload without its trailing checksum byte; and the bytes of the
buffer from position `r` on are unchanged. -/
theorem bip39_decode_success (sha256 : List Nat → List Nat) (en_words : words)
    (w : Option words) (m : String) (bytes : List Nat) (len : Nat)
    (h : (bip39_mnemonic_to_bytes sha256 en_words w m bytes len).1 ≠ 0) :
    validLen (bip39_mnemonic_to_bytes sha256 en_words w m bytes len).1 ∧
    (bip39_mnemonic_to_bytes sha256 en_words w m bytes len).1
      = (mnemonic_to_bytes (w.getD en_words) m (BIP39_ENTROPY_LEN_256 + 1)).1 - 1 ∧
    (bip39_mnemonic_to_bytes sha256 en_words w m bytes len).1
      = (mnemonic_to_bytes (w.getD en_words) m (BIP39_ENTROPY_LEN_256 + 1)).2.length - 1 ∧
    (bip39_mnemonic_to_bytes sha256 en_words w m bytes len).1 ≤ len ∧
    (bip39_mnemonic_to_bytes sha256 en_words w m bytes len).2.take
        (bip39_mnemonic_to_bytes sha256 en_words w m bytes len).1
      = (mnemonic_to_bytes (w.getD en_words) m (BIP39_ENTROPY_LEN_256 + 1)).2.dropLast ∧
    (bip39_mnemonic_to_bytes sha256 en_words w m bytes len).2.drop
        (bip39_mnemonic_to_bytes sha256 en_words w m bytes len).1
      = bytes.drop (bip39_mnemonic_to_bytes sha256 en_words w m bytes len).1 := by
  obtain ⟨_, hv, hle, heq⟩ := to_bytes_ne_zero sha256 en_words w m bytes len h
  have hlen := mnemonic_to_bytes_length (w.getD en_words) m 33
  have h33 : BIP39_ENTROPY_LEN_256 + 1 = 33 := rfl
  rw [h33, heq]
  set U := mnemonic_to_bytes (w.getD en_words) m 33 with hU
  have htl : (U.2.take (U.1 - 1)).length = U.1 - 1 := by
    rw [List.length_take, hlen]; omega
  refine ⟨hv, rfl, by rw [hlen], hle, ?_, ?_⟩
  · show (U.2.take (U.1 - 1) ++ bytes.drop (U.1 - 1)).take (U.1 - 1) = U.2.dropLast
    rw [List.take_append_of_le_length (by omega), List.take_of_length_le (by omega),
      List.dropLast_eq_take, hlen]
  · show (U.2.take (U.1 - 1) ++ bytes.drop (U.1 - 1)).drop (U.1 - 1) = bytes.drop (U.1 - 1)
    rw [List.drop_append_of_le_length (by omega), List.drop_of_length_le (by omega)]
    rfl

set_option maxRecDepth 100000 in
theorem bip39_decode_success_witness :
    (bip39_mnemonic_to_bytes sumHash unaryWords none "a a a a a a a a a a a aaaa"
      (List.replicate 20 7) 20).1 ≠ 0 ∧
    (bip39_mnemonic_to_bytes sumHash unaryWords none "a a a a a a a a a a a aaaa"
      (List.replicate 20 7) 20).2.take
        (bip39_mnemonic_to_bytes sumHash unaryWords none "a a a a a a a a a a a aaaa"
          (List.replicate 20 7) 20).1
      = (mnemonic_to_bytes ((none : Option words).getD unaryWords)
          "a a a a a a a a a a a aaaa" (BIP39_ENTROPY_LEN_256 + 1)).2.dropLast :=
  ⟨by decide, (bip39_decode_success sumHash unaryWords none "a a a a a a a a a a a aaaa"
    (List.replicate 20 7) 20 (by decide)).2.2.2.2.1⟩

/-- C9 (validity check). `bip39_mnemonic_is_valid` is true exactly when
`bip39_mnemonic_to_bytes` succeeds on the same wordlist and phrase with a buffer of
declared length 33 (whatever it holds), which is the case exactly when the decode succeeds
for some caller buffer; every failing decode gives false. -/
theorem bip39_is_valid_iff (sha256 : List Nat → List Nat) (en_words : words)
    (w : Option words) (m : String) (buf : List Nat) :
    (bip39_mnemonic_is_valid sha256 en_words w m = true ↔
      (bip39_mnemonic_to_bytes sha256 en_words w m buf 33).1 ≠ 0) ∧
    ((bip39_mnemonic_to_bytes sha256 en_words w m buf 33).1 ≠ 0 ↔
      ∃ bytes len, (bip39_mnemonic_to_bytes sha256 en_words w m bytes len).1 ≠ 0) ∧
    (bip39_mnemonic_is_valid sha256 en_words w m = false ↔
      (bip39_mnemonic_to_bytes sha256 en_words w m buf 33).1 = 0) := by
  have key : ∀ bytes len, (bip39_mnemonic_to_bytes sha256 en_words w m bytes len).1 ≠ 0 →
      ∀ bytes2, (bip39_mnemonic_to_bytes sha256 en_words w m bytes2 33).1 ≠ 0 := by
    intro bytes len h bytes2
    obtain ⟨_, hv, hle, _⟩ := to_bytes_ne_zero sha256 en_words w m bytes len h
    have h32 := validLen_le hv
    rw [← to_bytes_fst_of_le sha256 en_words w m bytes bytes2 len 33 hle (by omega)]
    exact h
  have hvalid : bip39_mnemonic_is_valid sha256 en_words w m = true ↔
      (bip39_mnemonic_to_bytes sha256 en_words w m buf 33).1 ≠ 0 := by
    simp only [bip39_mnemonic_is_valid, BIP39_ENTROPY_LEN_256, bne_iff_ne]
    exact ⟨fun h => key _ _ h buf, fun h => key _ _ h _⟩
  refine ⟨hvalid, ⟨fun h => ⟨buf, 33, h⟩, ?_⟩, ?_⟩
  · rintro ⟨bytes, len, h⟩
    exact key bytes len h buf
  · rw [← Bool.not_eq_true, hvalid, not_not]

/-- C10 (registry resolve). `bip39_get_wordlist` returns the wordlist registered under the
code for each of the seven codes of the table (whole-string, case-sensitive match); for the
null pointer and for every string that is not one of the seven codes (the empty string,
"ES", "zh", ...) it returns the wordlist of "en". It is total, so it never fails. -/
theorem bip39_get_wordlist_resolve :
    (∀ e ∈ lookup, bip39_get_wordlist (some e.1) = e.2) ∧
    (bip39_get_wordlist (some "en") = .en_words ∧ bip39_get_wordlist (some "es") = .es_words ∧
      bip39_get_wordlist (some "fr") = .fr_words ∧ bip39_get_wordlist (some "it") = .it_words ∧
      bip39_get_wordlist (some "jp") = .jp_words ∧
      bip39_get_wordlist (some "zhs") = .zhs_words ∧
      bip39_get_wordlist (some "zht") = .zht_words) ∧
    bip39_get_wordlist none = bip39_get_wordlist (some "en") ∧
    (∀ s : String, s ∉ lookup.map Prod.fst →
      bip39_get_wordlist (some s) = bip39_get_wordlist (some "en")) ∧
    (bip39_get_wordlist (some "") = bip39_get_wordlist (some "en") ∧
      bip39_get_wordlist (some "ES") = bip39_get_wordlist (some "en") ∧
      bip39_get_wordlist (some "zh") = bip39_get_wordlist (some "en") ∧
      bip39_get_wordlist (some "english") = bip39_get_wordlist (some "en")) := by
  refine ⟨by decide, by decide, by decide, ?_, by decide⟩
  intro s hs
  simp only [lookup, List.map_cons, List.map_nil, List.mem_cons, List.mem_singleton,
    List.not_mem_nil, or_false, not_or] at hs
  obtain ⟨h1, h2, h3, h4, h5, h6, h7⟩ := hs
  simp [bip39_get_wordlist, get_wordlist_loop, lookup, h1, h2, h3, h4, h5, h6, h7]

/-- C11 (supported languages). The string returned by `bip39_get_languages`, split on
single spaces, is exactly the list of names of the table `lookup[]` that
`bip39_get_wordlist` searches, in table order: en, es, fr, it, jp, zhs, zht; no name is
missing, added or repeated. -/
theorem bip39_get_languages_table :
    (splitWords bip39_get_languages.data).map String.mk = lookup.map Prod.fst ∧
    lookup.map Prod.fst = ["en", "es", "fr", "it", "jp", "zhs", "zht"] ∧
    (lookup.map Prod.fst).Nodup := by
  refine ⟨by decide, by decide, by decide⟩

/-- C12 (invalid wordlist). With a wordlist whose bit width is not 11,
`bip39_mnemonic_from_bytes` returns `NULL` for every entropy and length (the valid lengths
included), `bip39_mnemonic_to_bytes` returns 0 for every phrase and buffer and leaves the
buffer alone, and `bip39_mnemonic_is_valid` is false; none of this depends on the hash
primitive, which is not consulted. -/
theorem bip39_invalid_wordlist (sha256 : List Nat → List Nat) (en_words : words)
    (w : Option words) (hbits : (w.getD en_words).bits ≠ 11) :
    (∀ bytes len, bip39_mnemonic_from_bytes sha256 en_words w bytes len = none) ∧
    (∀ m bytes len, bip39_mnemonic_to_bytes sha256 en_words w m bytes len = (0, bytes)) ∧
    (∀ m, bip39_mnemonic_is_valid sha256 en_words w m = false) := by
  refine ⟨?_, ?_, ?_⟩
  · intro bytes len
    simp [bip39_mnemonic_from_bytes, hbits]
  · intro m bytes len
    exact to_bytes_bad_bits sha256 en_words w m bytes len hbits
  · intro m
    simp [bip39_mnemonic_is_valid, to_bytes_bad_bits sha256 en_words w m _ _ hbits]

theorem bip39_invalid_wordlist_witness :
    tenBitWords.bits ≠ 11 ∧
    ((∀ bytes len, bip39_mnemonic_from_bytes sumHash unaryWords (some tenBitWords) bytes len
        = none) ∧
      (∀ m bytes len, bip39_mnemonic_to_bytes sumHash unaryWords (some tenBitWords) m bytes len
        = (0, bytes)) ∧
      (∀ m, bip39_mnemonic_is_valid sumHash unaryWords (some tenBitWords) m = false)) :=
  ⟨by decide, bip39_invalid_wordlist sumHash unaryWords (some tenBitWords) (by decide)⟩

/-- C13 (an unset wordlist is the English one). With the null wordlist,
`bip39_mnemonic_from_bytes`, `bip39_mnemonic_to_bytes` and `bip39_mnemonic_is_valid` give
the results they give with the English wordlist `en_words`, for every entropy, phrase and
buffer. -/
theorem bip39_null_wordlist_english (sha256 : List Nat → List Nat) (en_words : words) :
    (∀ bytes len, bip39_mnemonic_from_bytes sha256 en_words none bytes len
      = bip39_mnemonic_from_bytes sha256 en_words (some en_words) bytes len) ∧
    (∀ m bytes len, bip39_mnemonic_to_bytes sha256 en_words none m bytes len
      = bip39_mnemonic_to_bytes sha256 en_words (some en_words) m bytes len) ∧
    (∀ m, bip39_mnemonic_is_valid sha256 en_words none m
      = bip39_mnemonic_is_valid sha256 en_words (some en_words) m) :=
  ⟨fun _ _ => rfl, fun _ _ _ => rfl, fun _ => rfl⟩

/-- C14 (word count invariant). For a wordlist of bit width 11 and a supported entropy
length `L`, the encoder reads exactly `(8L + 8L/32) / 11` word indices from the payload and
the phrase is their words joined by single spaces, so (the entries being space-free words)
the phrase has exactly that many words: 12, 15, 18, 21, 24 for 16, 20, 24, 28, 32 bytes.
The number `8L + 8L/32` of entropy plus checksum bits is an exact multiple of 11. -/
theorem bip39_word_count_invariant (sha256 : List Nat → List Nat) (en_words : words)
    (w : Option words) (bytes : List Nat) (len : Nat)
    (hbits : (w.getD en_words).bits = 11) (hv : validLen len) :
    (∃ m, bip39_mnemonic_from_bytes sha256 en_words w bytes len = some m ∧
      m = String.mk (joinWords
        ((mnemonic_indices (w.getD en_words) (checksummed_bytes sha256 bytes len)
          (len + 1)).map (fun i => ((w.getD en_words).word_at i).data))) ∧
      ((w.getD en_words).spaceFree → word_count m = (8 * len + 8 * len / 32) / 11)) ∧
    (mnemonic_indices (w.getD en_words) (checksummed_bytes sha256 bytes len)
      (len + 1)).length = (8 * len + 8 * len / 32) / 11 ∧
    11 ∣ 8 * len + 8 * len / 32 ∧
    ((8 * 16 + 8 * 16 / 32) / 11 = 12 ∧ (8 * 20 + 8 * 20 / 32) / 11 = 15 ∧
      (8 * 24 + 8 * 24 / 32) / 11 = 18 ∧ (8 * 28 + 8 * 28 / 32) / 11 = 21 ∧
      (8 * 32 + 8 * 32 / 32) / 11 = 24) := by
  set W := w.getD en_words with hW
  set idxs := mnemonic_indices W (checksummed_bytes sha256 bytes len) (len + 1) with hidxs
  have hcount : idxs.length = (8 * len + 8 * len / 32) / 11 := by
    rw [hidxs, mnemonic_indices_length, hbits]
    rcases hv with rfl | rfl | rfl | rfl | rfl <;> rfl
  have hpos : 0 < idxs.length := by
    rw [hcount]
    rcases hv with rfl | rfl | rfl | rfl | rfl <;> decide
  refine ⟨⟨_, (from_bytes_eq sha256 en_words w bytes len hbits hv).trans
    (mnemonic_from_bytes_eq _ _ _), rfl, ?_⟩, hcount, ?_, by decide⟩
  · intro hsep
    have hne : idxs.map (fun i => (W.word_at i).data) ≠ [] := by
      intro h
      have h0 := congrArg List.length h
      rw [List.length_map, List.length_nil] at h0
      exact absurd h0 (Nat.pos_iff_ne_zero.mp hpos)
    have hsplit := splitWords_joinWords (idxs.map (fun i => (W.word_at i).data)) hne
      (by
        intro t ht
        simp only [List.mem_map] at ht
        obtain ⟨i, hi, rfl⟩ := ht
        exact hsep i (mnemonic_indices_lt _ _ _ i hi))
    simp only [word_count, hsplit, List.length_map, hcount]
  · rcases hv with rfl | rfl | rfl | rfl | rfl <;> decide

theorem bip39_word_count_invariant_witness :
    (∃ m, bip39_mnemonic_from_bytes sumHash unaryWords none sampleEntropy 16 = some m ∧
      m = String.mk (joinWords
        ((mnemonic_indices ((none : Option words).getD unaryWords)
          (checksummed_bytes sumHash sampleEntropy 16)
          (16 + 1)).map (fun i => (((none : Option words).getD unaryWords).word_at i).data))) ∧
      (((none : Option words).getD unaryWords).spaceFree →
        word_count m = (8 * 16 + 8 * 16 / 32) / 11)) ∧
    (mnemonic_indices ((none : Option words).getD unaryWords)
      (checksummed_bytes sumHash sampleEntropy 16) (16 + 1)).length
        = (8 * 16 + 8 * 16 / 32) / 11 ∧
    11 ∣ 8 * 16 + 8 * 16 / 32 ∧
    ((8 * 16 + 8 * 16 / 32) / 11 = 12 ∧ (8 * 20 + 8 * 20 / 32) / 11 = 15 ∧
      (8 * 24 + 8 * 24 / 32) / 11 = 18 ∧ (8 * 28 + 8 * 28 / 32) / 11 = 21 ∧
      (8 * 32 + 8 * 32 / 32) / 11 = 24) :=
  bip39_word_count_invariant sumHash unaryWords none sampleEntropy 16 rfl (by decide)

/-- C15 (unknown word). If some word of the phrase, at whatever position, is absent from
the selected wordlist, the unpacking step `mnemonic_to_bytes` reports 0, so
`bip39_mnemonic_to_bytes` returns 0 and `bip39_mnemonic_is_valid` is false, whatever the
other words, the word count and the caller's buffer are. -/
theorem bip39_unknown_word (sha256 : List Nat → List Nat) (en_words : words)
    (w : Option words) (m : String) (bytes : List Nat) (len : Nat)
    (h : ∃ t ∈ (splitWords m.data).map String.mk, (w.getD en_words).index_of t = none) :
    (mnemonic_to_bytes (w.getD en_words) m (BIP39_ENTROPY_LEN_256 + 1)).1 = 0 ∧
    (bip39_mnemonic_to_bytes sha256 en_words w m bytes len).1 = 0 ∧
    bip39_mnemonic_is_valid sha256 en_words w m = false := by
  have hu : mnemonic_to_bytes (w.getD en_words) m 33 = (0, []) := by
    simp only [mnemonic_to_bytes, word_indices_none _ _ h]
  have hall : ∀ bs l, (bip39_mnemonic_to_bytes sha256 en_words w m bs l).1 = 0 := by
    intro bs l
    by_cases hbits : (w.getD en_words).bits = 11
    · rw [to_bytes_of_unpack sha256 en_words w m bs l _ _ hbits hu]
      simp
    · rw [to_bytes_bad_bits sha256 en_words w m bs l hbits]
  refine ⟨by rw [show BIP39_ENTROPY_LEN_256 + 1 = 33 from rfl, hu], hall bytes len, ?_⟩
  simp [bip39_mnemonic_is_valid, hall]

set_option maxRecDepth 100000 in
theorem bip39_unknown_word_witness :
    (mnemonic_to_bytes ((none : Option words).getD unaryWords)
      "a a a a a a b a a a a aaaa" (BIP39_ENTROPY_LEN_256 + 1)).1 = 0 ∧
    (bip39_mnemonic_to_bytes sumHash unaryWords none "a a a a a a b a a a a aaaa"
      (List.replicate 16 7) 16).1 = 0 ∧
    bip39_mnemonic_is_valid sumHash unaryWords none "a a a a a a b a a a a aaaa" = false :=
  bip39_unknown_word sumHash unaryWords none "a a a a a a b a a a a aaaa"
    (List.replicate 16 7) 16 ⟨"b", by decide, by decide⟩

set_option maxRecDepth 100000 in
/-- C16 (concrete scenario). With an English wordlist of bit width 11 whose entries 0 and 3
are "abandon" and "about" (and are found there by `index_of`), and a hash primitive whose
digest of sixteen zero bytes starts with 0x37 (as SHA-256 does), encoding the 16-byte
all-zero entropy gives the canonical phrase: "abandon" eleven times, then "about", whose
index 3 is the top four bits of 0x37. Decoding that phrase into a buffer of declared length
at least 16 returns 16 and puts sixteen zero bytes at its start. -/
theorem bip39_zero_entropy_vector (sha256 : List Nat → List Nat) (en_words : words)
    (hbits : en_words.bits = 11)
    (hw0 : en_words.word_at 0 = "abandon") (hw3 : en_words.word_at 3 = "about")
    (hi0 : en_words.index_of "abandon" = some 0) (hi3 : en_words.index_of "about" = some 3)
    (hsha : (sha256 zeroEntropy).getD 0 0 = 0x37) :
    bip39_mnemonic_from_bytes sha256 en_words (some en_words) zeroEntropy 16
      = some zeroPhrase ∧
    mnemonic_indices en_words (checksummed_bytes sha256 zeroEntropy 16) 17
      = [0, 0, 0, 0, 0, 0, 0, 0, 0, 0, 0, digest0 sha256 zeroEntropy / 16] ∧
    digest0 sha256 zeroEntropy / 16 = 3 ∧
    (∀ bytes len, 16 ≤ len →
      bip39_mnemonic_to_bytes sha256 en_words (some en_words) zeroPhrase bytes len
        = (16, zeroEntropy ++ bytes.drop 16)) := by
  have hd : digest0 sha256 zeroEntropy = 0x37 := by
    show (sha256 zeroEntropy).getD 0 0 % 256 = 0x37
    rw [hsha]
  have ht : zeroEntropy.take 16 = zeroEntropy := by decide
  have hpay : checksummed_bytes sha256 zeroEntropy 16 = zeroEntropy ++ [0x37] := by
    simp only [checksummed_bytes, ht, hd]
  have hidx : mnemonic_indices en_words (checksummed_bytes sha256 zeroEntropy 16) 17
      = [0, 0, 0, 0, 0, 0, 0, 0, 0, 0, 0, 3] := by
    have ht17 : (zeroEntropy ++ [0x37]).take 17 = zeroEntropy ++ [0x37] := by decide
    rw [hpay]
    simp only [mnemonic_indices, hbits, ht17]
    exact zero_payload_indices
  refine ⟨?_, ?_, ?_, ?_⟩
  · rw [from_bytes_eq sha256 en_words (some en_words) _ 16 hbits (by decide),
      mnemonic_from_bytes_eq]
    simp only [Option.getD_some]
    rw [hidx]
    simp only [List.map_cons, List.map_nil, hw0, hw3]
    rfl
  · rw [hidx, hd]
  · rw [hd]
  · intro bytes len hlen
    have hwi : word_indices en_words
        ["abandon", "abandon", "abandon", "abandon", "abandon", "abandon", "abandon",
          "abandon", "abandon", "abandon", "abandon", "about"]
        = some [0, 0, 0, 0, 0, 0, 0, 0, 0, 0, 0, 3] := by
      simp only [word_indices, hi0, hi3]
    have hu : mnemonic_to_bytes ((some en_words).getD en_words) zeroPhrase 33
        = (16 + 1, zeroEntropy ++ [0x30]) := by
      simp only [mnemonic_to_bytes, Option.getD_some, zeroPhrase_tokens, hwi, hbits]
      rw [← zero_payload_bytes]
      rfl
    rw [to_bytes_of_unpack sha256 en_words (some en_words) zeroPhrase bytes len _ _
      (by simpa using hbits) hu]
    have hget : (zeroEntropy ++ [0x30]).getD 16 0 = 0x30 := by decide
    have htk : (zeroEntropy ++ [0x30]).take 16 = zeroEntropy := by decide
    have hm : entropy_len_to_mask 16 = 0xf0 := by decide
    have hnl : ¬ len < 16 := Nat.not_lt.mpr hlen
    simp only [Nat.add_sub_cancel, hget, htk, hd, hm, hnl, if_false]
    simp
    decide

set_option maxRecDepth 100000 in
theorem bip39_zero_entropy_vector_witness :
    bip39_mnemonic_from_bytes sumHash miniEnglish (some miniEnglish) zeroEntropy 16
      = some zeroPhrase ∧
    mnemonic_indices miniEnglish (checksummed_bytes sumHash zeroEntropy 16) 17
      = [0, 0, 0, 0, 0, 0, 0, 0, 0, 0, 0, digest0 sumHash zeroEntropy / 16] ∧
    digest0 sumHash zeroEntropy / 16 = 3 ∧
    (∀ bytes len, 16 ≤ len →
      bip39_mnemonic_to_bytes sumHash miniEnglish (some miniEnglish) zeroPhrase bytes len
        = (16, zeroEntropy ++ bytes.drop 16)) :=
  bip39_zero_entropy_vector sumHash miniEnglish rfl rfl rfl (by decide) (by decide) (by decide)

set_option maxRecDepth 100000 in
/-- Two calls that fail for different kinds (a phrase of three words, a phrase of twelve
words with a wrong checksum) return the same result. -/
theorem bip39_failure_kinds_counterexample :
    decode_failure sumHash unaryWords none "a a a" 20 = some .InvalidWordCount ∧
    decode_failure sumHash unaryWords none "a a a a a a a a a a a aaaaa" 20
      = some .ChecksumMismatch ∧
    DecodeFailure.InvalidWordCount ≠ DecodeFailure.ChecksumMismatch ∧
    bip39_mnemonic_to_bytes sumHash unaryWords none "a a a" (List.replicate 20 7) 20
      = bip39_mnemonic_to_bytes sumHash unaryWords none "a a a a a a a a a a a aaaaa"
          (List.replicate 20 7) 20 := by
  decide

/-- C17 (failure outcomes), amended. `bip39_mnemonic_to_bytes` surfaces every failure,
whatever its kind (invalid wordlist, unknown word, invalid word count, buffer too small,
checksum mismatch), as one and the same outcome: the return value 0 with the caller's
buffer unchanged. A call fails exactly when it returns 0, and a success returns a non-zero
length; the kind of a failure cannot be read off the result. -/
theorem bip39_failure_outcome (sha256 : List Nat → List Nat) (en_words : words)
    (w : Option words) (m : String) (bytes : List Nat) (len : Nat) :
    (decode_failure sha256 en_words w m len ≠ none ↔
      (bip39_mnemonic_to_bytes sha256 en_words w m bytes len).1 = 0) ∧
    (decode_failure sha256 en_words w m len ≠ none →
      bip39_mnemonic_to_bytes sha256 en_words w m bytes len = (0, bytes)) ∧
    (decode_failure sha256 en_words w m len = none →
      validLen (bip39_mnemonic_to_bytes sha256 en_words w m bytes len).1) := by
  have hval : (bip39_mnemonic_to_bytes sha256 en_words w m bytes len).1 ≠ 0 →
      validLen (bip39_mnemonic_to_bytes sha256 en_words w m bytes len).1 := by
    intro h
    obtain ⟨_, hv, _, heq⟩ := to_bytes_ne_zero sha256 en_words w m bytes len h
    rw [heq]; exact hv
  have hzero : (bip39_mnemonic_to_bytes sha256 en_words w m bytes len).1 = 0 →
      bip39_mnemonic_to_bytes sha256 en_words w m bytes len = (0, bytes) := by
    intro h
    by_cases hbits : (w.getD en_words).bits = 11
    · rw [to_bytes_eq sha256 en_words w m bytes len hbits] at h ⊢
      split_ifs at h ⊢ with h1 h2 h3
      · rfl
      · rfl
      · rfl
      · exfalso
        apply h1
        right
        have h0 : (mnemonic_to_bytes (w.getD en_words) m 33).1 - 1 = 0 := h
        rw [h0]
        rfl
    · exact to_bytes_bad_bits sha256 en_words w m bytes len hbits
  have hiff : decode_failure sha256 en_words w m len ≠ none ↔
      (bip39_mnemonic_to_bytes sha256 en_words w m bytes len).1 = 0 := by
    by_cases hbits : (w.getD en_words).bits = 11
    · cases hwi : word_indices (w.getD en_words) ((splitWords m.data).map String.mk) with
      | none =>
        have hu : mnemonic_to_bytes (w.getD en_words) m 33 = (0, []) := by
          simp only [mnemonic_to_bytes, hwi]
        rw [to_bytes_of_unpack sha256 en_words w m bytes len _ _ hbits hu]
        simp [decode_failure, hbits, hwi]
      | some idxs =>
        rw [to_bytes_eq sha256 en_words w m bytes len hbits]
        have h33 : BIP39_ENTROPY_LEN_256 + 1 = 33 := rfl
        simp only [decode_failure, hbits, hwi, h33, ne_eq, not_true_eq_false, if_false]
        split_ifs with h1 h2 h3
        · simp
        · simp
        · simp only [not_true_eq_false, false_iff]
          intro h0
          have h0' : (mnemonic_to_bytes (w.getD en_words) m 33).1 - 1 = 0 := h0
          exact h1 (Or.inr (by rw [h0']; rfl))
        · simp
    · rw [to_bytes_bad_bits sha256 en_words w m bytes len hbits]
      simp [decode_failure, hbits]
  refine ⟨hiff, fun h => hzero (hiff.mp h), fun h => hval ?_⟩
  intro h0
  exact (hiff.mpr h0) h

/-- C18 (checksum mask table). `entropy_len_to_mask len` is non-zero exactly when `len` is
one of 16, 20, 24, 28, 32, and then it is the byte whose `8 * len / 32` most significant
bits are set and whose other bits are clear, that is `(0xff << (8 - len / 4)) & 0xff`:
0xf0, 0xf8, 0xfc, 0xfe, 0xff for 16, 20, 24, 28, 32. -/
theorem entropy_len_to_mask_table (len : Nat) :
    (entropy_len_to_mask len ≠ 0 ↔ validLen len) ∧
    (validLen len →
      entropy_len_to_mask len = (0xff <<< (8 - len / 4)) &&& 0xff ∧
      ∀ k, (entropy_len_to_mask len).testBit k = decide (8 - 8 * len / 32 ≤ k ∧ k < 8)) ∧
    (entropy_len_to_mask 16 = 0xf0 ∧ entropy_len_to_mask 20 = 0xf8 ∧
      entropy_len_to_mask 24 = 0xfc ∧ entropy_len_to_mask 28 = 0xfe ∧
      entropy_len_to_mask 32 = 0xff) := by
  refine ⟨?_, ?_, by decide⟩
  · rw [Ne, mask_eq_zero_iff, not_not]
  · intro hv
    have hbit : ∀ x j : Nat, x < 256 → (∀ k, k < 8 → x.testBit k = decide (j ≤ k)) →
        ∀ k, x.testBit k = decide (j ≤ k ∧ k < 8) := by
      intro x j hx h k
      by_cases hk : k < 8
      · simp [h k hk, hk]
      · have : x < 2 ^ k :=
          lt_of_lt_of_le hx (by
            have : (2 : Nat) ^ 8 ≤ 2 ^ k := Nat.pow_le_pow_right (by decide) (by omega)
            simpa using this)
        simp [Nat.testBit_lt_two_pow this, hk]
    rcases hv with rfl | rfl | rfl | rfl | rfl
    all_goals
      refine ⟨by decide, hbit _ _ (by decide) ?_⟩
      intro k hk
      interval_cases k <;> decide

/-- The payload of a 16-byte entropy has 17 bytes, that is 136 bits, which is not a multiple
of 11: after the twelve whole groups four bits are left over. -/
theorem bip39_payload_bits_counterexample :
    validLen 16 ∧
    (checksummed_bytes sumHash sampleEntropy 16).length = 16 + 1 ∧
    ¬ (11 ∣ 8 * (checksummed_bytes sumHash sampleEntropy 16).length) ∧
    ((bytesBits (checksummed_bytes sumHash sampleEntropy 16)).drop
      (11 * (mnemonic_indices unaryWords (checksummed_bytes sumHash sampleEntropy 16)
        (16 + 1)).length)).length = 4 := by
  decide

/-- C19 (payload bit stream length), amended. For a supported entropy length `L` (with `L`
bytes present at the entropy pointer) the checksummed payload that
`bip39_mnemonic_from_bytes` hands to the packing step has `L + 1` bytes, that is
`8 * (L + 1)` bits. The packing step reads `8 * (L + 1) / 11` whole groups, which cover the
first `8L + L/4` bits (entropy plus checksum bits, an exact multiple of 11); the last
`8 - L/4` bits of the checksum byte belong to no group. `8 * (L + 1)` is itself a multiple
of 11 only for `L = 32`. -/
theorem bip39_payload_bits (sha256 : List Nat → List Nat) (en_words : words)
    (w : Option words) (bytes : List Nat) (len : Nat)
    (hbits : (w.getD en_words).bits = 11) (hv : validLen len) (hlen : len ≤ bytes.length) :
    bip39_mnemonic_from_bytes sha256 en_words w bytes len
      = mnemonic_from_bytes (w.getD en_words) (checksummed_bytes sha256 bytes len) (len + 1) ∧
    (checksummed_bytes sha256 bytes len).length = len + 1 ∧
    (bytesBits (checksummed_bytes sha256 bytes len)).length = 8 * (len + 1) ∧
    11 * (mnemonic_indices (w.getD en_words) (checksummed_bytes sha256 bytes len)
      (len + 1)).length = 8 * len + len / 4 ∧
    8 * (len + 1) - 11 * (mnemonic_indices (w.getD en_words)
      (checksummed_bytes sha256 bytes len) (len + 1)).length = 8 - len / 4 ∧
    (11 ∣ 8 * (len + 1) ↔ len = 32) := by
  have hpl : (checksummed_bytes sha256 bytes len).length = len + 1 := by
    simp [checksummed_bytes, List.length_take, Nat.min_eq_left hlen]
  have hcount : (mnemonic_indices (w.getD en_words) (checksummed_bytes sha256 bytes len)
      (len + 1)).length = (len + 1) * 8 / 11 := by
    rw [mnemonic_indices_length, hbits]
  refine ⟨from_bytes_eq sha256 en_words w bytes len hbits hv, hpl, ?_, ?_, ?_, ?_⟩
  · rw [bytesBits_length, hpl]
  · rw [hcount]
    rcases hv with rfl | rfl | rfl | rfl | rfl <;> rfl
  · rw [hcount]
    rcases hv with rfl | rfl | rfl | rfl | rfl <;> rfl
  · rcases hv with rfl | rfl | rfl | rfl | rfl <;> decide

theorem bip39_payload_bits_witness :
    bip39_mnemonic_from_bytes sumHash unaryWords none sampleEntropy 16
      = mnemonic_from_bytes ((none : Option words).getD unaryWords)
          (checksummed_bytes sumHash sampleEntropy 16) (16 + 1) ∧
    (checksummed_bytes sumHash sampleEntropy 16).length = 16 + 1 ∧
    (bytesBits (checksummed_bytes sumHash sampleEntropy 16)).length = 8 * (16 + 1) ∧
    11 * (mnemonic_indices ((none : Option words).getD unaryWords)
      (checksummed_bytes sumHash sampleEntropy 16) (16 + 1)).length = 8 * 16 + 16 / 4 ∧
    8 * (16 + 1) - 11 * (mnemonic_indices ((none : Option words).getD unaryWords)
      (checksummed_bytes sumHash sampleEntropy 16) (16 + 1)).length = 8 - 16 / 4 ∧
    (11 ∣ 8 * (16 + 1) ↔ 16 = 32) :=
  bip39_payload_bits sumHash unaryWords none sampleEntropy 16 rfl (by decide) (by decide)

/-- C20 (reverse round trip). For a wordlist of bit width 11 whose `index_of` and `word_at`
are mutual inverses, whenever `bip39_mnemonic_to_bytes` succeeds on a phrase and leaves the
entropy in the caller's buffer, `bip39_mnemonic_from_bytes` applied to that entropy gives
back the very same phrase (the same words, joined by single spaces). Hence two accepted
phrases with the same entropy are the same phrase. -/
theorem bip39_reverse_round_trip (sha256 : List Nat → List Nat) (en_words w : words)
    (hbits : w.bits = 11) (hinv : w.inverse) (m : String) (bytes : List Nat) (len : Nat)
    (h : (bip39_mnemonic_to_bytes sha256 en_words (some w) m bytes len).1 ≠ 0) :
    bip39_mnemonic_from_bytes sha256 en_words (some w)
        (bip39_mnemonic_to_bytes sha256 en_words (some w) m bytes len).2
        (bip39_mnemonic_to_bytes sha256 en_words (some w) m bytes len).1 = some m ∧
    (∀ (m2 : String) (bytes2 : List Nat) (len2 : Nat),
      (bip39_mnemonic_to_bytes sha256 en_words (some w) m2 bytes2 len2).1
          = (bip39_mnemonic_to_bytes sha256 en_words (some w) m bytes len).1 →
      (bip39_mnemonic_to_bytes sha256 en_words (some w) m2 bytes2 len2).2.take
          (bip39_mnemonic_to_bytes sha256 en_words (some w) m bytes len).1
        = (bip39_mnemonic_to_bytes sha256 en_words (some w) m bytes len).2.take
          (bip39_mnemonic_to_bytes sha256 en_words (some w) m bytes len).1 →
      m2 = m) := by
  have key : ∀ (m : String) (bytes : List Nat) (len : Nat),
      (bip39_mnemonic_to_bytes sha256 en_words (some w) m bytes len).1 ≠ 0 →
      validLen (bip39_mnemonic_to_bytes sha256 en_words (some w) m bytes len).1 ∧
      mnemonic_from_bytes w
        ((bip39_mnemonic_to_bytes sha256 en_words (some w) m bytes len).2.take
            (bip39_mnemonic_to_bytes sha256 en_words (some w) m bytes len).1
          ++ [digest0 sha256 ((bip39_mnemonic_to_bytes sha256 en_words (some w) m bytes len).2.take
            (bip39_mnemonic_to_bytes sha256 en_words (some w) m bytes len).1)])
        ((bip39_mnemonic_to_bytes sha256 en_words (some w) m bytes len).1 + 1) = some m := by
    intro m bytes len h
    have hb : ((some w).getD en_words).bits = 11 := hbits
    obtain ⟨_, hv, hle, heq⟩ := to_bytes_ne_zero sha256 en_words (some w) m bytes len h
    have hform := to_bytes_eq sha256 en_words (some w) m bytes len hb
    simp only [Option.getD_some] at hv hle heq hform
    set U := mnemonic_to_bytes w m 33 with hU
    set L := U.1 - 1 with hLdef
    have hL0 : L ≠ 0 := validLen_ne_zero hv
    have hU1 : U.1 = L + 1 := by omega
    have hulen : U.2.length = L + 1 := by
      rw [hU, mnemonic_to_bytes_length, ← hU, hU1]
    have hmask : entropy_len_to_mask L ≠ 0 := by
      rw [Ne, mask_eq_zero_iff]; exact not_not.mpr hv
    have hck : U.2.getD L 0 &&& entropy_len_to_mask L
        = digest0 sha256 (U.2.take L) &&& entropy_len_to_mask L := by
      by_contra hne
      apply h
      rw [hform]
      have h1 : ¬ (U.1 = 0 ∨ entropy_len_to_mask L = 0) := by
        rintro (h1 | h1)
        · omega
        · exact hmask h1
      rw [if_neg h1, if_neg (Nat.not_lt.mpr hle), if_pos hne]
    have hres1 : (bip39_mnemonic_to_bytes sha256 en_words (some w) m bytes len).1 = L := by
      rw [heq]
    have hres2 : (bip39_mnemonic_to_bytes sha256 en_words (some w) m bytes len).2.take L
        = U.2.take L := by
      rw [heq]
      show (U.2.take L ++ bytes.drop L).take L = U.2.take L
      rw [List.take_append_of_le_length (by rw [List.length_take, hulen]; omega),
        List.take_of_length_le (by rw [List.length_take, hulen]; omega)]
    rw [hres1, hres2]
    refine ⟨hv, ?_⟩
    have hpL : U.2.getD L 0 < 256 := by
      have hmem : U.2.getD L 0 ∈ U.2 := by
        rw [List.getD_eq_getElem?_getD, List.getElem?_eq_getElem (show L < U.2.length by omega)]
        exact List.getElem_mem _
      exact mnemonic_to_bytes_lt w m 33 _ hmem
    have htop : topBits (L / 4) (U.2.getD L 0)
        = topBits (L / 4) (digest0 sha256 (U.2.take L)) := by
      rw [topBits_eq_land L hv _ hpL, topBits_eq_land L hv _ (digest0_lt _ _), hck]
    have hfst := mnemonic_to_bytes_fst w m 33
    have hwc : 11 * word_count m = 8 * L + L / 4 ∧ 0 < L / 4 ∧ L / 4 ≤ 8 := by
      rcases hfst with h0 | ⟨h1, _⟩
      · rw [← hU] at h0; omega
      · rw [← hU, hbits, hU1] at h1
        rcases hv with hv | hv | hv | hv | hv <;> omega
    exact pack_unpack w hbits hinv m L (L / 4) 33 U.2 _
      (by rw [← hU1]) hwc.1 hwc.2.1 hwc.2.2 htop
  have enc : ∀ (m : String) (bytes : List Nat) (len : Nat),
      (bip39_mnemonic_to_bytes sha256 en_words (some w) m bytes len).1 ≠ 0 →
      bip39_mnemonic_from_bytes sha256 en_words (some w)
        (bip39_mnemonic_to_bytes sha256 en_words (some w) m bytes len).2
        (bip39_mnemonic_to_bytes sha256 en_words (some w) m bytes len).1 = some m := by
    intro m bytes len h
    obtain ⟨hv, hk⟩ := key m bytes len h
    rw [from_bytes_eq sha256 en_words (some w) _ _ hbits hv]
    exact hk
  refine ⟨enc m bytes len h, ?_⟩
  intro m2 bytes2 len2 h1 h2
  have hne2 : (bip39_mnemonic_to_bytes sha256 en_words (some w) m2 bytes2 len2).1 ≠ 0 := by
    rw [h1]; exact h
  obtain ⟨_, hk⟩ := key m bytes len h
  obtain ⟨_, hk2⟩ := key m2 bytes2 len2 hne2
  rw [h1, h2, hk] at hk2
  exact (Option.some.inj hk2).symm

set_option maxRecDepth 100000 in
theorem bip39_reverse_round_trip_witness :
    bip39_mnemonic_from_bytes sumHash unaryWords (some unaryWords)
        (bip39_mnemonic_to_bytes sumHash unaryWords (some unaryWords)
          "a a a a a a a a a a a aaaa" (List.replicate 20 7) 20).2
        (bip39_mnemonic_to_bytes sumHash unaryWords (some unaryWords)
          "a a a a a a a a a a a aaaa" (List.replicate 20 7) 20).1
      = some "a a a a a a a a a a a aaaa" ∧
    (∀ (m2 : String) (bytes2 : List Nat) (len2 : Nat),
      (bip39_mnemonic_to_bytes sumHash unaryWords (some unaryWords) m2 bytes2 len2).1
          = (bip39_mnemonic_to_bytes sumHash unaryWords (some unaryWords)
              "a a a a a a a a a a a aaaa" (List.replicate 20 7) 20).1 →
      (bip39_mnemonic_to_bytes sumHash unaryWords (some unaryWords) m2 bytes2 len2).2.take
          (bip39_mnemonic_to_bytes sumHash unaryWords (some unaryWords)
            "a a a a a a a a a a a aaaa" (List.replicate 20 7) 20).1
        = (bip39_mnemonic_to_bytes sumHash unaryWords (some unaryWords)
            "a a a a a a a a a a a aaaa" (List.replicate 20 7) 20).2.take
          (bip39_mnemonic_to_bytes sumHash unaryWords (some unaryWords)
            "a a a a a a a a a a a aaaa" (List.replicate 20 7) 20).1 →
      m2 = "a a a a a a a a a a a aaaa") :=
  bip39_reverse_round_trip sumHash unaryWords unaryWords rfl unaryWords_inverse
    "a a a a a a a a a a a aaaa" (List.replicate 20 7) 20 (by decide)

end Bip39
